import Mathlib

/-!
# Verification of the zebrafy ZPL graphic-field codec

This file embeds the zebrafy library's graphic-field codec in Lean 4:
the CRC-16 engine (src/zebrafy/crc.py), the graphic-field encoder
(src/zebrafy/graphic_field.py) and the graphic-field parser
(src/zebrafy/zebrafy_zpl.py), and proves properties of the embedding.

Bytes are modelled as natural numbers (with explicit `< 256` bounds where
they matter) and text as lists of characters.  External library functions
used by the code (Python's base64, zlib, PIL.Image.frombytes) are modelled
by executable Lean functions; the zlib model produces a zlib container
with stored (uncompressed) DEFLATE blocks, which is a valid zlib stream,
and its inflater parses exactly such containers.
-/

set_option maxRecDepth 100000

namespace Zebrafy

/-! ## Hexadecimal (Python bytes.hex / bytes.fromhex) -/

/-- The lowercase hex digit characters, as produced by Python's
bytes.hex(). -/
def hexDigits : List Char := ("0123456789abcdef").toList

/-- Lowercase hex digit for a value below 16. -/
def hexChar (n : Nat) : Char := hexDigits.getD n '0'

/-- Python bytes.hex(): two lowercase hex digits per byte. -/
def bytesHex : List Nat → List Char
  | [] => []
  | b :: bs => hexChar (b / 16) :: hexChar (b % 16) :: bytesHex bs

/-- Value of a hex digit character (either case), none for non-hex. -/
def hexVal (c : Char) : Option Nat :=
  if '0' ≤ c ∧ c ≤ '9' then some (c.toNat - 48)
  else if 'a' ≤ c ∧ c ≤ 'f' then some (c.toNat - 87)
  else if 'A' ≤ c ∧ c ≤ 'F' then some (c.toNat - 55)
  else none

/-- Python bytes.fromhex(): parse pairs of hex digits; fails on a
non-hex character or an odd number of digits. -/
def fromhex : List Char → Option (List Nat)
  | [] => some []
  | [_] => none
  | c1 :: c2 :: cs =>
    match hexVal c1, hexVal c2, fromhex cs with
    | some h, some l, some rest => some ((h * 16 + l) :: rest)
    | _, _, _ => none

/-! ## Base64 (Python base64.b64encode / base64.b64decode) -/

/-- The standard Base64 alphabet used by Python's base64 module. -/
def b64Alphabet : List Char :=
  ("ABCDEFGHIJKLMNOPQRSTUVWXYZabcdefghijklmnopqrstuvwxyz0123456789+/").toList

/-- Base64 character for a 6-bit value. -/
def b64Char (n : Nat) : Char := b64Alphabet.getD n 'A'

/-- Standard Base64 encoding with padding, as produced by Python's
base64.b64encode (three bytes become four characters). -/
def b64encode : List Nat → List Char
  | [] => []
  | [a] => [b64Char (a / 4), b64Char (a % 4 * 16), '=', '=']
  | [a, b] => [b64Char (a / 4), b64Char (a % 4 * 16 + b / 16), b64Char (b % 16 * 4), '=']
  | a :: b :: c :: rest =>
    b64Char (a / 4) :: b64Char (a % 4 * 16 + b / 16) ::
      b64Char (b % 16 * 4 + c / 64) :: b64Char (c % 64) :: b64encode rest

/-- Index of a character in the Base64 alphabet. -/
def b64Val (c : Char) : Option Nat := b64Alphabet.indexOf? c

/-- Decode one final group of two Base64 characters (one byte). -/
def b64dec1 (c1 c2 : Char) : Option (List Nat) :=
  match b64Val c1, b64Val c2 with
  | some s1, some s2 => some [s1 * 4 + s2 / 16]
  | _, _ => none

/-- Decode one final group of three Base64 characters (two bytes). -/
def b64dec2 (c1 c2 c3 : Char) : Option (List Nat) :=
  match b64Val c1, b64Val c2, b64Val c3 with
  | some s1, some s2, some s3 => some [s1 * 4 + s2 / 16, s2 % 16 * 16 + s3 / 4]
  | _, _, _ => none

/-- Decode one full group of four Base64 characters (three bytes). -/
def b64dec3 (c1 c2 c3 c4 : Char) : Option (List Nat) :=
  match b64Val c1, b64Val c2, b64Val c3, b64Val c4 with
  | some s1, some s2, some s3, some s4 =>
    some [s1 * 4 + s2 / 16, s2 % 16 * 16 + s3 / 4, s3 % 4 * 64 + s4]
  | _, _, _, _ => none

/-- Base64 decoding of properly padded input, as accepted by Python's
base64.b64decode on the encoder's output: groups of four characters,
with '=' padding allowed only in the final group. -/
def b64decode : List Char → Option (List Nat)
  | [] => some []
  | c1 :: c2 :: c3 :: c4 :: rest =>
    if c3 = '=' then
      if c4 = '=' ∧ rest = [] then b64dec1 c1 c2 else none
    else if c4 = '=' then
      if rest = [] then b64dec2 c1 c2 c3 else none
    else
      match b64dec3 c1 c2 c3 c4, b64decode rest with
      | some g, some r => some (g ++ r)
      | _, _ => none
  | _ => none

/-! ## zlib (model of Python zlib.compress / zlib.decompress)

zlib is an external C library; it is modelled here by an executable
compressor that emits a zlib container holding stored (uncompressed)
DEFLATE blocks followed by the Adler-32 checksum, and an inflater that
parses exactly such containers, checking the block framing and the
checksum.  Stored blocks are a valid zlib encoding of any byte sequence,
and Python's zlib.decompress inverts zlib.compress just as the model
inflater inverts the model compressor. -/

/-- Adler-32 checksum of a byte list (RFC 1950). -/
def adler32 (l : List Nat) : Nat :=
  let p := l.foldl (fun st x => ((st.1 + x) % 65521, (st.2 + (st.1 + x) % 65521) % 65521))
    (1, 0)
  p.2 * 65536 + p.1

/-- The four big-endian trailer bytes holding the Adler-32 checksum. -/
def adlerBytes (l : List Nat) : List Nat :=
  [adler32 l / 16777216 % 256, adler32 l / 65536 % 256, adler32 l / 256 % 256,
    adler32 l % 256]

/-- Stored (BTYPE 00) DEFLATE blocks for a byte list, chunked at the
65535-byte stored-block limit; the first byte of each block holds the
BFINAL bit.  Fuelled for structural recursion. -/
def storedBlocksAux : Nat → List Nat → List Nat
  | 0, _ => []
  | fuel + 1, l =>
    if l.length ≤ 65535 then
      1 :: l.length % 256 :: l.length / 256 ::
        (65535 - l.length) % 256 :: (65535 - l.length) / 256 :: l
    else
      0 :: 255 :: 255 :: 0 :: 0 :: (l.take 65535 ++ storedBlocksAux fuel (l.drop 65535))

/-- Stored DEFLATE blocks for a byte list. -/
def storedBlocks (l : List Nat) : List Nat := storedBlocksAux (l.length + 1) l

/-- Model of zlib.compress: the 0x78 0x01 zlib header, stored DEFLATE
blocks, and the Adler-32 trailer. -/
def zlibCompress (l : List Nat) : List Nat :=
  120 :: 1 :: (storedBlocks l ++ adlerBytes l)

/-- Parse a sequence of stored DEFLATE blocks, returning the
decompressed bytes and the remaining input.  Fuelled for structural
recursion; fails on a non-stored block type or bad framing. -/
def inflateStoredAux : Nat → List Nat → Option (List Nat × List Nat)
  | 0, _ => none
  | fuel + 1, bh :: l1 :: l2 :: n1 :: n2 :: rest =>
    if bh / 2 % 4 = 0 then
      if n1 + 256 * n2 + (l1 + 256 * l2) = 65535 then
        if l1 + 256 * l2 ≤ rest.length then
          if bh % 2 = 1 then some (rest.take (l1 + 256 * l2), rest.drop (l1 + 256 * l2))
          else
            match inflateStoredAux fuel (rest.drop (l1 + 256 * l2)) with
            | some (out2, rest3) => some (rest.take (l1 + 256 * l2) ++ out2, rest3)
            | none => none
        else none
      else none
    else none
  | _ + 1, _ => none

/-- Model of Python zlib.decompress on stored-block containers: check
the zlib header, inflate the stored blocks, and verify the Adler-32
trailer. -/
def zlibDecompress (s : List Nat) : Option (List Nat) :=
  match s with
  | cmf :: flg :: rest =>
    if cmf % 16 = 8 ∧ (cmf * 256 + flg) % 31 = 0 then
      match inflateStoredAux rest.length rest with
      | some (out, tail) => if tail = adlerBytes out then some out else none
      | none => none
    else none
  | _ => none

/-! ## CRC-16 engine (src/zebrafy/crc.py, CRC._get_crc16_ccitt) -/

/-- One iteration of the inner bit loop of CRC._get_crc16_ccitt:
if (crc & 1) ^ (bit) is set, shift right and xor the polynomial,
otherwise just shift right. -/
def crcBit (poly crc bit : Nat) : Nat :=
  if (crc &&& 1) ^^^ bit ≠ 0 then (crc >>> 1) ^^^ poly else crc >>> 1

/-- The inner loop of CRC._get_crc16_ccitt over the low k bits of cur,
least-significant bit first, shifting cur right after each bit. -/
def crcBits (poly : Nat) : Nat → Nat → Nat → Nat
  | 0, crc, _ => crc
  | k + 1, crc, cur => crcBits poly k (crcBit poly crc (cur &&& 1)) (cur >>> 1)

/-- The raw register after the byte loop of CRC._get_crc16_ccitt:
crc starts at 0xFFFF and each data byte is masked with 0xFF
(cur_byte = 0xFF & b). -/
def crc16Raw (poly : Nat) (data : List Nat) : Nat :=
  data.foldl (fun crc b => crcBits poly 8 crc (255 &&& b)) 65535

/-- CRC._get_crc16_ccitt: after the loop, Python computes
crc = ~crc & 0xFFFF (the complement of the low 16 bits, here written as
xor with 0xFFFF after reducing mod 2^16, which is the same function on
naturals), then crc = (crc << 8) | ((crc >> 8) & 0xFF), and returns
crc & 0xFFFF (written as mod 2^16). -/
def crc16 (poly : Nat) (data : List Nat) : Nat :=
  (((crc16Raw poly data % 65536 ^^^ 65535) <<< 8) |||
    ((crc16Raw poly data % 65536 ^^^ 65535) >>> 8 &&& 255)) % 65536

/-- The reversed CRC-16-CCITT polynomial 0x8408, the default used
throughout the library. -/
def defaultPoly : Nat := 33800

/-- The uppercase hex digit characters. -/
def hexUpperDigits : List Char := ("0123456789ABCDEF").toList

/-- Uppercase hex digit for a value below 16. -/
def hexUpper (n : Nat) : Char := hexUpperDigits.getD n '0'

/-- Four-digit zero-padded uppercase hexadecimal rendering of a value
below 2^16, as produced by the Python format string 04X (which pads to
at least four digits; the CRC value is always below 2^16, so exactly
four digits are produced). -/
def toHex4 (n : Nat) : List Char :=
  [hexUpper (n / 4096 % 16), hexUpper (n / 256 % 16), hexUpper (n / 16 % 16),
    hexUpper (n % 16)]

/-- CRC.get_crc_hex_string: the CRC as a four digit zero padded
uppercase hexadecimal string. -/
def getCrcHexString (poly : Nat) (data : List Nat) : List Char :=
  toHex4 (crc16 poly data)

/-- Value of an uppercase hex digit. -/
def hexUpperVal (c : Char) : Nat := hexUpperDigits.indexOf c

/-- Parse a four-digit hex rendering back to its value. -/
def hex4Value : List Char → Nat
  | [d1, d2, d3, d4] =>
    hexUpperVal d1 * 4096 + hexUpperVal d2 * 256 + hexUpperVal d3 * 16 + hexUpperVal d4
  | _ => 0

/-! ## Claim model of the CRC computation (C2)

The following definitions restate, word for word, the computation the
specification describes for the CRC: initialize to 0xFFFF; per input
byte, for each of its 8 bits LSB-first, xor the low crc bit with the
current bit to decide between shift-and-xor-poly and plain shift,
shifting the byte right after each bit; then complement masked to 16
bits; then byte-swap as (crc << 8 | crc >> 8) & 0xFFFF. -/

/-- Per-byte bit loop, exactly as the specification words it. -/
def crcBitsSpecModel (poly : Nat) : Nat → Nat → Nat → Nat
  | 0, crc, _ => crc
  | k + 1, crc, cur =>
    crcBitsSpecModel poly k
      (if (crc &&& 1) ^^^ (cur &&& 1) ≠ 0 then (crc >>> 1) ^^^ poly else crc >>> 1)
      (cur >>> 1)

/-- The specification's description of the complete CRC computation. -/
def crc16SpecModel (poly : Nat) (data : List Nat) : Nat :=
  (((data.foldl (fun crc b => crcBitsSpecModel poly 8 crc b) 65535 % 65536 ^^^ 65535)
      <<< 8) |||
    ((data.foldl (fun crc b => crcBitsSpecModel poly 8 crc b) 65535 % 65536 ^^^ 65535)
      >>> 8)) &&& 65535

/-! ## Decimal rendering and parsing of the directive numbers -/

/-- Decimal digit character. -/
def digitChr (n : Nat) : Char := Char.ofNat (48 + n)

/-- Decimal rendering, fuelled for structural recursion. -/
def natToDecAux : Nat → Nat → List Char
  | 0, n => [digitChr n]
  | fuel + 1, n =>
    if n < 10 then [digitChr n]
    else natToDecAux fuel (n / 10) ++ [digitChr (n % 10)]

/-- Decimal rendering of a natural number, as Python str() produces for
a nonnegative int. -/
def natToDec (n : Nat) : List Char := natToDecAux n n

/-- Decimal value of a digit string, as Python int() computes. -/
def decValue (ds : List Char) : Nat := ds.foldl (fun a c => a * 10 + (c.toNat - 48)) 0

/-! ## Data model -/

/-- A 1-bit packed bitmap: width and height in pixels and the packed
row-major bytes (MSB first within a byte), as PIL Image.tobytes()
produces for mode "1". -/
structure Bitmap where
  width : Nat
  height : Nat
  data : List Nat
deriving DecidableEq

/-- Bytes per packed row of a 1-bit image. -/
def rowBytes (w : Nat) : Nat := (w + 7) / 8

/-- A well-formed bitmap as handed to the encoder by the image adapter:
positive dimensions, packed data of exactly ceil(w/8)*h bytes, byte
values below 256. -/
def validBitmap (b : Bitmap) : Prop :=
  1 ≤ b.width ∧ 1 ≤ b.height ∧ b.data.length = rowBytes b.width * b.height ∧
    ∀ x ∈ b.data, x < 256

instance validBitmapDec (b : Bitmap) : Decidable (validBitmap b) :=
  decidable_of_iff (1 ≤ b.width ∧ 1 ≤ b.height ∧
    b.data.length = rowBytes b.width * b.height ∧ ∀ x ∈ b.data, x < 256) Iff.rfl

/-! ## Graphic-field encoder (src/zebrafy/graphic_field.py) -/

/-- The three values of the GraphicField format parameter. -/
inductive GFFormat
  | ascii
  | b64
  | z64
deriving DecidableEq

/-- GraphicField._get_bytes_per_row: int((width + 7) / 8); the source
divides floats, which agrees with floor division on these sizes. -/
def gfBytesPerRow (img : Bitmap) : Nat := (img.width + 7) / 8

/-- GraphicField._get_graphic_field_count: bytes per row times height. -/
def gfGraphicFieldCount (img : Bitmap) : Nat := gfBytesPerRow img * img.height

/-- The length-n chunks of a character list, fuelled (Python's
data_string[i : i + n] for i in range(0, len(data_string), n)). -/
def chunksAux : Nat → Nat → List Char → List (List Char)
  | 0, _, _ => []
  | fuel + 1, n, s => if s = [] then [] else s.take n :: chunksAux fuel n (s.drop n)

/-- Python's "\n".join: the pieces joined with single newlines. -/
def joinNL : List (List Char) → List Char
  | [] => []
  | [x] => x
  | x :: y :: rest => x ++ '\n' :: joinNL (y :: rest)

/-- Python's "\n".join of the length-n chunks of s, as
GraphicField._get_data_string applies when string_line_break is set. -/
def insertLineBreaks (n : Nat) (s : List Char) : List Char :=
  joinNL (chunksAux s.length n s)

/-- GraphicField._get_data_string: hex for ASCII; Base64 wrapped in
the :B64:/:Z64: header with the CRC of the Base64 text for the binary
formats; optional line breaks afterwards (a line-break value of 0 is
falsy in Python and disables breaking, like None). -/
def gfDataString (fmt : GFFormat) (img : Bitmap) (slb : Option Nat) : List Char :=
  let ds :=
    match fmt with
    | .ascii => bytesHex img.data
    | .b64 =>
      (":B64:").toList ++ b64encode img.data ++
        ':' :: getCrcHexString 33800 ((b64encode img.data).map Char.toNat)
    | .z64 =>
      (":Z64:").toList ++ b64encode (zlibCompress img.data) ++
        ':' :: getCrcHexString 33800 ((b64encode (zlibCompress img.data)).map Char.toNat)
  match slb with
  | none => ds
  | some n => if n = 0 then ds else insertLineBreaks n ds

/-- GraphicField._get_binary_byte_count: the length of the data string
(computed on the data string with line breaks already inserted). -/
def gfBinaryByteCount (fmt : GFFormat) (img : Bitmap) (slb : Option Nat) : Nat :=
  (gfDataString fmt img slb).length

/-- GraphicField.get_graphic_field: the complete directive.  The format
letter in the emitted text is the literal "A" from the source f-string
regardless of the chosen format. -/
def getGraphicField (fmt : GFFormat) (img : Bitmap) (slb : Option Nat) : List Char :=
  ("^GFA,").toList ++ natToDec (gfBinaryByteCount fmt img slb) ++
    ',' :: natToDec (gfGraphicFieldCount img) ++
    ',' :: natToDec (gfBytesPerRow img) ++
    ',' :: gfDataString fmt img slb ++ ("^FS").toList

/-! ## CRC constructor boundary (src/zebrafy/crc.py, data_bytes setter) -/

/-- Python values that can reach the CRC constructor. -/
inductive PyVal
  | pyNone
  | pyBytes (data : List Nat)
  | pyInt (n : Int)
  | pyStr (s : List Char)
deriving DecidableEq

/-- The two Python error classes raised by the setters. -/
inductive PyError
  | valueError
  | typeError
deriving DecidableEq

/-- CRC.data_bytes setter: None is rejected with ValueError, a
non-bytes value with TypeError, and any bytes object is stored. -/
def crcDataBytesSetter : PyVal → Except PyError (List Nat)
  | .pyNone => .error .valueError
  | .pyBytes d => .ok d
  | .pyInt _ => .error .typeError
  | .pyStr _ => .error .typeError

instance exceptDecEq {e a : Type} [DecidableEq e] [DecidableEq a] :
    DecidableEq (Except e a) := fun x y =>
  match x, y with
  | .error u, .error v =>
    if h : u = v then isTrue (by rw [h]) else isFalse (by simp [h])
  | .ok u, .ok v =>
    if h : u = v then isTrue (by rw [h]) else isFalse (by simp [h])
  | .error _, .ok _ => isFalse (by simp)
  | .ok _, .error _ => isFalse (by simp)

/-! ## Graphic-field parser (src/zebrafy/zebrafy_zpl.py) -/

/-- The distinct failures of ZebrafyZPL.to_images: the first three are
the ValueError messages raised in the source, the rest model exceptions
surfacing from the codecs and PIL. -/
inductive ZplError
  | noGraphicField
  | invalidCompression
  | crcMismatch
  | asciiEncodeError
  | b64DecodeError
  | zlibDecodeError
  | hexDecodeError
  | imageSizeError
deriving DecidableEq

/-- One match of GF_MATCHER: the format letters, the three numeric
groups (already as integers, as to_images consumes them), and the data
group. -/
structure GFMatch where
  letters : List Char
  bbc : Nat
  gfc : Nat
  bpr : Nat
  data : List Char
deriving DecidableEq

/-- Consume the literal ^GF at the start of the pattern. -/
def expectGF : List Char → Option (List Char)
  | '^' :: 'G' :: 'F' :: rest => some rest
  | _ => none

/-- Consume a literal comma. -/
def expectComma : List Char → Option (List Char)
  | ',' :: rest => some rest
  | _ => none

/-- Match the regex group ([1-9][0-9]*): the maximal run of digits,
whose first digit must not be 0 (reducing a greedy digit run can never
help the following literal comma match, so maximal munch is exact). -/
def parseNum (s : List Char) : Option (Nat × List Char) :=
  match s.span (fun c => c.isDigit) with
  | ([], _) => none
  | (d :: ds, rest) => if d = '0' then none else some (decValue (d :: ds), rest)

/-- Match the lazy group (.*?(?=\^FS)) followed by the literal ^FS:
the data runs to the first occurrence of ^FS and may not contain a
newline, since . does not match one. -/
def findFS : List Char → Option (List Char × List Char)
  | [] => none
  | c :: cs =>
    if c = '^' ∧ cs.take 2 = ['F', 'S'] then some ([], cs.drop 2)
    else if c = '\n' then none
    else
      match findFS cs with
      | some (d, r) => some (c :: d, r)
      | none => none

/-- Attempt to match GF_MATCHER at the start of the input, returning
the match groups and the input after the consumed text.  The greedy
([ABC]*) group is maximal munch, exact because a letter can never
satisfy the following comma. -/
def tryMatch (s : List Char) : Option (GFMatch × List Char) :=
  (expectGF s).bind fun s1 =>
  (expectComma (s1.span (fun c => c == 'A' || c == 'B' || c == 'C')).2).bind fun s3 =>
  (parseNum s3).bind fun p1 =>
  (expectComma p1.2).bind fun s5 =>
  (parseNum s5).bind fun p2 =>
  (expectComma p2.2).bind fun s7 =>
  (parseNum s7).bind fun p3 =>
  (expectComma p3.2).bind fun s9 =>
  (findFS s9).bind fun dr =>
  some (⟨(s1.span (fun c => c == 'A' || c == 'B' || c == 'C')).1, p1.1, p2.1, p3.1,
    dr.1⟩, dr.2)

/-- All matches of GF_MATCHER in the input, scanning left to right and
resuming after each consumed match (re.findall), fuelled. -/
def scanGFAux : Nat → List Char → List GFMatch
  | 0, _ => []
  | fuel + 1, s =>
    match s with
    | [] => []
    | c :: cs =>
      match tryMatch (c :: cs) with
      | some (m, rest) => m :: scanGFAux fuel rest
      | none => scanGFAux fuel cs

/-- GF_MATCHER.findall. -/
def scanGF (s : List Char) : List GFMatch := scanGFAux s.length s

/-- Whether the text contains the literal ^GF anywhere (the only place
a GF_MATCHER match can start). -/
def containsGF : List Char → Bool
  | [] => false
  | c :: cs => if c = '^' ∧ cs.take 2 = ['G', 'F'] then true else containsGF cs

/-- ZebrafyZPL._match_dimensions: int(width * 8), int(total / width);
the source divides floats, which agrees with floor division on these
sizes. -/
def matchDimensions (total width : Nat) : Nat × Nat := (width * 8, total / width)

/-- Model of PIL Image.frombytes for mode "1": the packed data must be
exactly ceil(w/8)*h bytes, otherwise PIL raises ValueError. -/
def pilFrombytes (w h : Nat) (data : List Nat) : Except ZplError Bitmap :=
  if data.length = rowBytes w * h then .ok ⟨w, h, data⟩ else .error .imageSizeError

/-- Python str.encode("ascii"): byte values of the characters, failing
on any character above 127. -/
def encodeAscii (s : List Char) : Option (List Nat) :=
  if s.all (fun c => c.toNat < 128) then some (s.map Char.toNat) else none

/-- Python slice data_bytes[-4:]. -/
def pyTail4 (l : List Char) : List Char := l.drop (l.length - 4)

/-- Python slice data_bytes[5:-5]. -/
def pyBody (l : List Char) : List Char := (l.take (l.length - 5)).drop 5

/-- The body of the to_images loop for one match: dimensions from the
numeric groups, rejection of any compression letters other than the
single letter A, then either the :B64:/:Z64: branch (CRC check over the
sliced Base64 text, Base64 decode, optional zlib inflate) or the hex
branch, and finally the PIL image construction. -/
def processMatch (m : GFMatch) : Except ZplError Bitmap :=
  if m.letters ≠ ['A'] then .error .invalidCompression
  else if (":Z64").toList.isPrefixOf m.data ∨ (":B64").toList.isPrefixOf m.data then
    match encodeAscii (pyBody m.data) with
    | none => .error .asciiEncodeError
    | some bodyBytes =>
      if pyTail4 m.data ≠ getCrcHexString 33800 bodyBytes then .error .crcMismatch
      else
        match b64decode (pyBody m.data) with
        | none => .error .b64DecodeError
        | some decoded =>
          if (":Z64").toList.isPrefixOf m.data then
            match zlibDecompress decoded with
            | none => .error .zlibDecodeError
            | some inflated =>
              pilFrombytes (matchDimensions m.gfc m.bpr).1
                (matchDimensions m.gfc m.bpr).2 inflated
          else
            pilFrombytes (matchDimensions m.gfc m.bpr).1
              (matchDimensions m.gfc m.bpr).2 decoded
  else
    match fromhex m.data with
    | none => .error .hexDecodeError
    | some bytes =>
      pilFrombytes (matchDimensions m.gfc m.bpr).1 (matchDimensions m.gfc m.bpr).2 bytes

/-- The to_images loop over all matches: images accumulate in match
order and the first failure aborts the whole conversion. -/
def processAll : List GFMatch → Except ZplError (List Bitmap)
  | [] => .ok []
  | m :: ms =>
    match processMatch m with
    | .error e => .error e
    | .ok img =>
      match processAll ms with
      | .error e => .error e
      | .ok imgs => .ok (img :: imgs)

/-- ZebrafyZPL.to_images: find all graphic-field matches (failing when
there are none) and convert each to a bitmap. -/
def toImages (zpl : List Char) : Except ZplError (List Bitmap) :=
  match scanGF zpl with
  | [] => .error .noGraphicField
  | ms => processAll ms

/-- The bitmap the parser reconstructs from an encoded directive: the
width is rounded up to the byte boundary, height and packed bytes are
unchanged. -/
def decodedOf (img : Bitmap) : Bitmap :=
  ⟨gfBytesPerRow img * 8, img.height, img.data⟩

/-- The match produced by GF_MATCHER on an emitted directive. -/
def matchOf (fmt : GFFormat) (img : Bitmap) : GFMatch :=
  ⟨['A'], gfBinaryByteCount fmt img none, gfGraphicFieldCount img, gfBytesPerRow img,
    gfDataString fmt img none⟩

/-- One interleaving entry of a ZPL document: caret-free text followed
by an encoded directive. -/
structure DocEntry where
  sep : List Char
  img : Bitmap
  fmt : GFFormat

/-- A ZPL document made of caret-free separators around emitted
directives, ending in trailing caret-free text. -/
def docOf : List DocEntry → List Char → List Char
  | [], post => post
  | e :: es, post => e.sep ++ (getGraphicField e.fmt e.img none ++ docOf es post)

/-- The chunk list of s at width n. -/
def chunks (n : Nat) (s : List Char) : List (List Char) := chunksAux s.length n s

/-- The 5-character payload tag of a binary format. -/
def tagOf : GFFormat → List Char
  | GFFormat.ascii => []
  | GFFormat.b64 => (":B64:").toList
  | GFFormat.z64 => (":Z64:").toList

/-- The Base64 text embedded in a binary-format payload. -/
def b64Text : GFFormat → Bitmap → List Char
  | GFFormat.ascii, _ => []
  | GFFormat.b64, img => b64encode img.data
  | GFFormat.z64, img => b64encode (zlibCompress img.data)

theorem hexVal_hexChar {n : Nat} (h : n < 16) : hexVal (hexChar n) = some n := by
  interval_cases n <;> decide

theorem fromhex_bytesHex {bs : List Nat} (h : ∀ b ∈ bs, b < 256) :
    fromhex (bytesHex bs) = some bs := by
  induction bs with
  | nil => rfl
  | cons b bs ih =>
    have hb : b < 256 := h b (List.mem_cons_self b bs)
    have h16a : b / 16 < 16 := by omega
    have h16b : b % 16 < 16 := by omega
    have ihh := ih (fun x hx => h x (List.mem_cons_of_mem b hx))
    simp only [bytesHex, fromhex, hexVal_hexChar h16a, hexVal_hexChar h16b, ihh]
    have : b / 16 * 16 + b % 16 = b := by omega
    rw [this]

theorem b64Val_b64Char {n : Nat} (h : n < 64) : b64Val (b64Char n) = some n := by
  interval_cases n <;> decide

theorem b64Char_ne_eq {n : Nat} (h : n < 64) : b64Char n ≠ '=' := by
  interval_cases n <;> decide

theorem b64decode_b64encode_aux :
    ∀ (n : Nat) (bs : List Nat), bs.length ≤ n → (∀ b ∈ bs, b < 256) →
      b64decode (b64encode bs) = some bs := by
  intro n
  induction n with
  | zero =>
    intro bs hlen _
    match bs with
    | [] => rfl
  | succ n ih =>
    intro bs hlen h
    match bs with
    | [] => rfl
    | [a] =>
      have ha : a < 256 := h a (by simp)
      have h1 : a / 4 < 64 := by omega
      have h2 : a % 4 * 16 < 64 := by omega
      simp only [b64encode, b64decode, if_pos rfl, and_self, if_pos, b64dec1,
        b64Val_b64Char h1, b64Val_b64Char h2]
      have : a / 4 * 4 + a % 4 * 16 / 16 = a := by omega
      rw [this]
    | [a, b] =>
      have ha : a < 256 := h a (by simp)
      have hb : b < 256 := h b (by simp)
      have h1 : a / 4 < 64 := by omega
      have h2 : a % 4 * 16 + b / 16 < 64 := by omega
      have h3 : b % 16 * 4 < 64 := by omega
      simp only [b64encode, b64decode, if_neg (b64Char_ne_eq h3), if_pos rfl, if_true,
        b64dec2, b64Val_b64Char h1, b64Val_b64Char h2, b64Val_b64Char h3]
      have e1 : a / 4 * 4 + (a % 4 * 16 + b / 16) / 16 = a := by omega
      have e2 : (a % 4 * 16 + b / 16) % 16 * 16 + b % 16 * 4 / 4 = b := by omega
      rw [e1, e2]
    | a :: b :: c :: rest =>
      have ha : a < 256 := h a (by simp)
      have hb : b < 256 := h b (by simp)
      have hc : c < 256 := h c (by simp)
      have h1 : a / 4 < 64 := by omega
      have h2 : a % 4 * 16 + b / 16 < 64 := by omega
      have h3 : b % 16 * 4 + c / 64 < 64 := by omega
      have h4 : c % 64 < 64 := by omega
      have hlen' : rest.length ≤ n := by
        simp only [List.length_cons] at hlen; omega
      have hrest : ∀ x ∈ rest, x < 256 := fun x hx => h x (by simp [hx])
      simp only [b64encode, b64decode, if_neg (b64Char_ne_eq h3),
        if_neg (b64Char_ne_eq h4), b64dec3, b64Val_b64Char h1, b64Val_b64Char h2,
        b64Val_b64Char h3, b64Val_b64Char h4, ih rest hlen' hrest]
      have e1 : a / 4 * 4 + (a % 4 * 16 + b / 16) / 16 = a := by omega
      have e2 : (a % 4 * 16 + b / 16) % 16 * 16 + (b % 16 * 4 + c / 64) / 4 = b := by
        omega
      have e3 : (b % 16 * 4 + c / 64) % 4 * 64 + c % 64 = c := by omega
      rw [e1, e2, e3]
      rfl

/-- Base64 round trip: decoding the encoding of a byte list recovers it. -/
theorem b64decode_b64encode {bs : List Nat} (h : ∀ b ∈ bs, b < 256) :
    b64decode (b64encode bs) = some bs :=
  b64decode_b64encode_aux bs.length bs le_rfl h

theorem b64Char_mem {n : Nat} (h : n < 64) : b64Char n ∈ b64Alphabet := by
  interval_cases n <;> decide

theorem b64encode_mem_aux :
    ∀ (n : Nat) (bs : List Nat), bs.length ≤ n → (∀ b ∈ bs, b < 256) →
      ∀ c ∈ b64encode bs, c ∈ b64Alphabet ∨ c = '=' := by
  intro n
  induction n with
  | zero =>
    intro bs hlen _
    match bs with
    | [] => intro c hc; cases hc
  | succ n ih =>
    intro bs hlen h
    match bs with
    | [] => intro c hc; cases hc
    | [a] =>
      have ha : a < 256 := h a (by simp)
      intro c hc
      simp only [b64encode, List.mem_cons, List.not_mem_nil, or_false] at hc
      rcases hc with rfl | rfl | rfl | rfl
      · exact Or.inl (b64Char_mem (by omega))
      · exact Or.inl (b64Char_mem (by omega))
      · exact Or.inr rfl
      · exact Or.inr rfl
    | [a, b] =>
      have ha : a < 256 := h a (by simp)
      have hb : b < 256 := h b (by simp)
      intro c hc
      simp only [b64encode, List.mem_cons, List.not_mem_nil, or_false] at hc
      rcases hc with rfl | rfl | rfl | rfl
      · exact Or.inl (b64Char_mem (by omega))
      · exact Or.inl (b64Char_mem (by omega))
      · exact Or.inl (b64Char_mem (by omega))
      · exact Or.inr rfl
    | a :: b :: cc :: rest =>
      have ha : a < 256 := h a (by simp)
      have hb : b < 256 := h b (by simp)
      have hcc : cc < 256 := h cc (by simp)
      have hlen' : rest.length ≤ n := by
        simp only [List.length_cons] at hlen; omega
      intro c hc
      simp only [b64encode, List.mem_cons] at hc
      rcases hc with rfl | rfl | rfl | rfl | hmem
      · exact Or.inl (b64Char_mem (by omega))
      · exact Or.inl (b64Char_mem (by omega))
      · exact Or.inl (b64Char_mem (by omega))
      · exact Or.inl (b64Char_mem (by omega))
      · exact ih rest hlen' (fun x hx => h x (by simp [hx])) c hmem

/-- Every character of a Base64 encoding is in the alphabet or is
padding. -/
theorem b64encode_mem {bs : List Nat} (h : ∀ b ∈ bs, b < 256) :
    ∀ c ∈ b64encode bs, c ∈ b64Alphabet ∨ c = '=' :=
  b64encode_mem_aux bs.length bs le_rfl h

theorem storedBlocksAux_irrel :
    ∀ (n : Nat) (l : List Nat) (f1 f2 : Nat), l.length ≤ n →
      l.length < f1 → l.length < f2 → storedBlocksAux f1 l = storedBlocksAux f2 l := by
  intro n
  induction n with
  | zero =>
    intro l f1 f2 hn h1 h2
    match l, f1, f2 with
    | [], g1 + 1, g2 + 1 => simp [storedBlocksAux]
  | succ n ih =>
    intro l f1 f2 hn h1 h2
    match f1, f2 with
    | g1 + 1, g2 + 1 =>
      simp only [storedBlocksAux]
      by_cases hle : l.length ≤ 65535
      · simp [hle]
      · have hdrop : (l.drop 65535).length ≤ n := by
          simp only [List.length_drop]; omega
        have hd1 : (l.drop 65535).length < g1 := by
          simp only [List.length_drop]; omega
        have hd2 : (l.drop 65535).length < g2 := by
          simp only [List.length_drop]; omega
        simp [hle, ih (l.drop 65535) g1 g2 hdrop hd1 hd2]

/-- Unfolding equation for `storedBlocks`. -/
theorem storedBlocks_eq (l : List Nat) :
    storedBlocks l =
      if l.length ≤ 65535 then
        1 :: l.length % 256 :: l.length / 256 ::
          (65535 - l.length) % 256 :: (65535 - l.length) / 256 :: l
      else
        0 :: 255 :: 255 :: 0 :: 0 ::
          (l.take 65535 ++ storedBlocks (l.drop 65535)) := by
  show storedBlocksAux (l.length + 1) l = _
  rw [storedBlocksAux]
  by_cases hle : l.length ≤ 65535
  · simp [hle]
  · have h1 : (l.drop 65535).length < l.length := by
      simp only [List.length_drop]; omega
    simp only [if_neg hle]
    rw [storedBlocksAux_irrel (l.drop 65535).length (l.drop 65535) l.length
      ((l.drop 65535).length + 1) le_rfl (by omega) (by omega)]
    rfl

theorem inflate_storedBlocks :
    ∀ (n : Nat) (l tail : List Nat) (fuel : Nat), l.length ≤ n →
      l.length < fuel →
      inflateStoredAux fuel (storedBlocks l ++ tail) = some (l, tail) := by
  intro n
  induction n with
  | zero =>
    intro l tail fuel hn hf
    match l, fuel with
    | [], g + 1 =>
      rw [show storedBlocks [] = [1, 0, 0, 255, 255] from rfl]
      simp only [List.cons_append, List.nil_append, inflateStoredAux]
      norm_num
  | succ n ih =>
    intro l tail fuel hn hf
    match fuel with
    | g + 1 =>
      rw [storedBlocks_eq]
      by_cases hle : l.length ≤ 65535
      · rw [if_pos hle]
        have e1 : l.length % 256 + 256 * (l.length / 256) = l.length := by omega
        have e2 : (65535 - l.length) % 256 + 256 * ((65535 - l.length) / 256) +
            (l.length % 256 + 256 * (l.length / 256)) = 65535 := by omega
        have hlen : l.length ≤ (l ++ tail).length := by
          simp only [List.length_append]; omega
        simp only [List.cons_append, inflateStoredAux, e1, e2, if_true, if_pos hlen]
        norm_num
        intro hC
        exact absurd (by omega) hC
      · simp only [if_neg hle, List.cons_append, inflateStoredAux]
        have e255 : (255 : Nat) + 256 * 255 = 65535 := by norm_num
        have htk : (l.take 65535).length = 65535 := by
          simp only [List.length_take]; omega
        have hrest : (65535 : Nat) ≤ (l.take 65535 ++ (storedBlocks (l.drop 65535) ++ tail)).length := by
          simp only [List.length_append, htk]; omega
        simp only [List.append_assoc, e255, if_true]
        rw [if_pos hrest]
        rw [if_neg (by omega : ¬ (0 : Nat) % 2 = 1)]
        have htake : (l.take 65535 ++ (storedBlocks (l.drop 65535) ++ tail)).take 65535 = l.take 65535 :=
          List.take_left' htk
        have hdrop : (l.take 65535 ++ (storedBlocks (l.drop 65535) ++ tail)).drop 65535 = storedBlocks (l.drop 65535) ++ tail :=
          List.drop_left' htk
        rw [htake, hdrop]
        have hdn : (l.drop 65535).length ≤ n := by
          simp only [List.length_drop]; omega
        have hdf : (l.drop 65535).length < g := by
          simp only [List.length_drop]; omega
        rw [ih (l.drop 65535) tail g hdn hdf]
        simp [List.take_append_drop]

theorem storedBlocks_length_ge :
    ∀ (n : Nat) (l : List Nat), l.length ≤ n →
      l.length + 5 ≤ (storedBlocks l).length := by
  intro n
  induction n with
  | zero =>
    intro l hn
    match l with
    | [] => simp [storedBlocks, storedBlocksAux]
  | succ n ih =>
    intro l hn
    rw [storedBlocks_eq]
    by_cases hle : l.length ≤ 65535
    · simp [if_pos hle]
    · have hdn : (l.drop 65535).length ≤ n := by
        simp only [List.length_drop]; omega
      have := ih (l.drop 65535) hdn
      simp only [if_neg hle, List.length_cons, List.length_append, List.length_take,
        List.length_drop] at this ⊢
      omega

/-- zlib round trip: decompressing the compression of a byte list
recovers it. -/
theorem zlibDecompress_zlibCompress (l : List Nat) :
    zlibDecompress (zlibCompress l) = some l := by
  simp only [zlibCompress, zlibDecompress, and_self, if_true]
  have hlen : l.length < (storedBlocks l ++ adlerBytes l).length := by
    have := storedBlocks_length_ge l.length l le_rfl
    simp only [List.length_append]
    omega
  rw [inflate_storedBlocks l.length l (adlerBytes l) _ le_rfl hlen]
  simp

theorem hexUpperVal_hexUpper {n : Nat} (h : n < 16) : hexUpperVal (hexUpper n) = n := by
  interval_cases n <;> decide

theorem hexUpper_mem {n : Nat} (h : n < 16) : hexUpper n ∈ hexUpperDigits := by
  interval_cases n <;> decide

theorem toHex4_length (n : Nat) : (toHex4 n).length = 4 := rfl

theorem hex4Value_toHex4 {n : Nat} (h : n < 65536) : hex4Value (toHex4 n) = n := by
  simp only [toHex4, hex4Value, hexUpperVal_hexUpper (show n / 4096 % 16 < 16 by omega),
    hexUpperVal_hexUpper (show n / 256 % 16 < 16 by omega),
    hexUpperVal_hexUpper (show n / 16 % 16 < 16 by omega),
    hexUpperVal_hexUpper (show n % 16 < 16 by omega)]
  omega

theorem toHex4_inj {n m : Nat} (hn : n < 65536) (hm : m < 65536)
    (h : toHex4 n = toHex4 m) : n = m := by
  have := congrArg hex4Value h
  rwa [hex4Value_toHex4 hn, hex4Value_toHex4 hm] at this

theorem crc16_lt (poly : Nat) (data : List Nat) : crc16 poly data < 65536 :=
  Nat.mod_lt _ (by norm_num)

theorem and255_eq_mod (x : Nat) : x &&& 255 = x % 256 := by
  apply Nat.eq_of_testBit_eq
  intro i
  have h255 : (255 : Nat).testBit i = decide (i < 8) := by
    have := Nat.testBit_two_pow_sub_one 8 i
    norm_num at this ⊢
    exact this
  have h256 : (256 : Nat) = 2 ^ 8 := by norm_num
  rw [Nat.testBit_and, h255, h256, Nat.testBit_mod_two_pow]
  cases Nat.decLt i 8 with
  | _ h => simp [h]

theorem and65535_eq_mod (x : Nat) : x &&& 65535 = x % 65536 := by
  apply Nat.eq_of_testBit_eq
  intro i
  have hm : (65535 : Nat).testBit i = decide (i < 16) := by
    have := Nat.testBit_two_pow_sub_one 16 i
    norm_num at this ⊢
    exact this
  have hp : (65536 : Nat) = 2 ^ 16 := by norm_num
  rw [Nat.testBit_and, hm, hp, Nat.testBit_mod_two_pow]
  cases Nat.decLt i 16 with
  | _ h => simp [h]

theorem crcBitsSpecModel_eq (poly : Nat) :
    ∀ (k crc cur : Nat), crcBitsSpecModel poly k crc cur = crcBits poly k crc cur := by
  intro k
  induction k with
  | zero => intro crc cur; rfl
  | succ k ih => intro crc cur; simp only [crcBitsSpecModel, crcBits, crcBit, ih]

theorem foldl_congr_mem {f g : Nat → Nat → Nat} :
    ∀ (l : List Nat) (a : Nat), (∀ b ∈ l, ∀ c, f c b = g c b) →
      l.foldl f a = l.foldl g a := by
  intro l
  induction l with
  | nil => intro a _; rfl
  | cons b bs ih =>
    intro a h
    simp only [List.foldl_cons, h b (by simp)]
    exact ih _ (fun x hx c => h x (by simp [hx]) c)

theorem crc16Raw_spec_eq (poly : Nat) (data : List Nat) (h : ∀ b ∈ data, b < 256) :
    crc16Raw poly data =
      data.foldl (fun crc b => crcBitsSpecModel poly 8 crc b) 65535 := by
  apply foldl_congr_mem
  intro b hb c
  have hblt : b < 256 := h b hb
  have hmask : 255 &&& b = b := by
    rw [Nat.and_comm, and255_eq_mod, Nat.mod_eq_of_lt hblt]
  rw [hmask, crcBitsSpecModel_eq]

theorem crc16_spec_eq (poly : Nat) (data : List Nat) (h : ∀ b ∈ data, b < 256) :
    crc16 poly data = crc16SpecModel poly data := by
  unfold crc16 crc16SpecModel
  rw [crc16Raw_spec_eq poly data h, and65535_eq_mod]
  have hc1 : (data.foldl (fun crc b => crcBitsSpecModel poly 8 crc b) 65535 % 65536 ^^^
      65535) < 65536 := by
    have h1 : (data.foldl (fun crc b => crcBitsSpecModel poly 8 crc b) 65535 % 65536) <
        2 ^ 16 := by norm_num [Nat.mod_lt]
    have h2 : (65535 : Nat) < 2 ^ 16 := by norm_num
    have := Nat.xor_lt_two_pow h1 h2
    norm_num at this
    exact this
  have hshift : (data.foldl (fun crc b => crcBitsSpecModel poly 8 crc b) 65535 % 65536 ^^^
      65535) >>> 8 < 256 := by
    rw [Nat.shiftRight_eq_div_pow]
    omega
  rw [show ∀ x : Nat, x < 256 → x &&& 255 = x from fun x hx => by
    rw [and255_eq_mod, Nat.mod_eq_of_lt hx]]
  exact hshift

/-! ## CRC-16 burst-error facts (used for tamper detection, C8)

A single-byte substitution in the input always changes the CRC.  The
proof uses the affine structure of the register update over xor, a
finite check that the byte-to-register map at a fixed state is
injective, and injectivity of each register step and of the final
complement, byte-swap and hex rendering. -/

theorem shiftRight_xor (x y n : Nat) : (x ^^^ y) >>> n = (x >>> n) ^^^ (y >>> n) := by
  apply Nat.eq_of_testBit_eq
  intro i
  simp [Nat.testBit_shiftRight, Nat.testBit_xor]

theorem and_one_cases (x : Nat) : x &&& 1 = 0 ∨ x &&& 1 = 1 := by
  rw [Nat.and_one_is_mod]
  omega

theorem crcBit_lt {poly crc : Nat} (bit : Nat) (hp : poly < 65536) (hc : crc < 65536) :
    crcBit poly crc bit < 65536 := by
  have hs : crc >>> 1 < 65536 := by
    rw [Nat.shiftRight_eq_div_pow]
    omega
  unfold crcBit
  split
  · have h1 : crc >>> 1 < 2 ^ 16 := by norm_num at hs ⊢; omega
    have h2 : poly < 2 ^ 16 := by norm_num; omega
    have := Nat.xor_lt_two_pow h1 h2
    norm_num at this
    omega
  · exact hs

theorem crcBits_lt {poly : Nat} (hp : poly < 65536) :
    ∀ (k : Nat) {crc : Nat} (cur : Nat), crc < 65536 → crcBits poly k crc cur < 65536 := by
  intro k
  induction k with
  | zero => intro crc cur hc; exact hc
  | succ k ih => intro crc cur hc; exact ih _ (crcBit_lt _ hp hc)

theorem crc16Raw_lt {poly : Nat} (hp : poly < 65536) (data : List Nat) :
    crc16Raw poly data < 65536 := by
  have H : ∀ (l : List Nat) (a : Nat), a < 65536 →
      l.foldl (fun crc b => crcBits poly 8 crc (255 &&& b)) a < 65536 := by
    intro l
    induction l with
    | nil => intro a ha; exact ha
    | cons b bs ih =>
      intro a ha
      exact ih _ (crcBits_lt hp 8 _ ha)
  exact H data 65535 (by norm_num)

theorem xor_left_comm (a b c : Nat) : a ^^^ (b ^^^ c) = b ^^^ (a ^^^ c) := by
  rw [← Nat.xor_assoc, Nat.xor_comm a b, Nat.xor_assoc]

theorem crcBit_zero_xor (poly x y : Nat) :
    crcBit poly (x ^^^ y) 0 = crcBit poly x 0 ^^^ crcBit poly y 0 := by
  have hand : (x ^^^ y) &&& 1 = (x &&& 1) ^^^ (y &&& 1) := Nat.and_xor_distrib_right
  have hshift := shiftRight_xor x y 1
  unfold crcBit
  rcases and_one_cases x with hx | hx <;> rcases and_one_cases y with hy | hy <;>
    simp only [hand, hx, hy, Nat.xor_zero, Nat.zero_xor, Nat.xor_self, hshift] <;>
    simp only [ne_eq, not_true_eq_false, not_false_eq_true, if_true, if_false,
      reduceIte, one_ne_zero, Nat.xor_zero] <;>
    simp [Nat.xor_assoc, Nat.xor_comm, xor_left_comm]
  rw [← Nat.xor_assoc, Nat.xor_self, Nat.zero_xor]

theorem crcBit_decomp (poly s bit : Nat) (hb : bit ≤ 1) :
    crcBit poly s bit = crcBit poly s 0 ^^^ (if bit = 1 then poly else 0) := by
  match bit, hb with
  | 0, _ => simp [Nat.xor_zero]
  | 1, _ =>
    unfold crcBit
    rcases and_one_cases s with hs | hs <;>
      simp only [hs, Nat.zero_xor, Nat.xor_self, Nat.xor_zero, ne_eq, reduceIte,
        one_ne_zero, not_false_eq_true, not_true_eq_false, if_true, if_false]
    rw [Nat.xor_assoc, Nat.xor_self, Nat.xor_zero]

theorem crcBits_xor (poly : Nat) :
    ∀ (k s t cur : Nat),
      crcBits poly k (s ^^^ t) cur = crcBits poly k s cur ^^^ crcBits poly k t 0 := by
  intro k
  induction k with
  | zero => intro s t cur; rfl
  | succ k ih =>
    intro s t cur
    have hb : cur &&& 1 ≤ 1 := by rcases and_one_cases cur with h | h <;> omega
    have step : crcBit poly (s ^^^ t) (cur &&& 1) =
        crcBit poly s (cur &&& 1) ^^^ crcBit poly t 0 := by
      rw [crcBit_decomp poly (s ^^^ t) _ hb, crcBit_zero_xor,
        crcBit_decomp poly s _ hb, Nat.xor_assoc, Nat.xor_comm (crcBit poly t 0),
        ← Nat.xor_assoc, Nat.xor_assoc]
    show crcBits poly k (crcBit poly (s ^^^ t) (cur &&& 1)) (cur >>> 1) = _
    rw [step, ih]
    rfl

set_option maxRecDepth 10000 in
theorem crcByteTable_nodup :
    ((List.range 256).map (fun b => crcBits 33800 8 0 b)).Nodup := by decide

theorem crcBits_byte_inj {s b bp : Nat} (hb : b < 256) (hbp : bp < 256)
    (h : crcBits 33800 8 s b = crcBits 33800 8 s bp) : b = bp := by
  have hs : ∀ c : Nat, crcBits 33800 8 s c = crcBits 33800 8 0 c ^^^ crcBits 33800 8 s 0 := by
    intro c
    have := crcBits_xor 33800 8 0 s c
    rwa [Nat.zero_xor] at this
  rw [hs b, hs bp] at h
  have h2 : crcBits 33800 8 0 b = crcBits 33800 8 0 bp := by
    have := congrArg (fun z => z ^^^ crcBits 33800 8 s 0) h
    simpa [Nat.xor_assoc, Nat.xor_self, Nat.xor_zero] using this
  have hmem : b ∈ List.range 256 := List.mem_range.mpr hb
  have hmemp : bp ∈ List.range 256 := List.mem_range.mpr hbp
  exact List.inj_on_of_nodup_map crcByteTable_nodup hmem hmemp h2

theorem crcBit0_inj {a b : Nat} (ha : a < 65536) (hb : b < 65536)
    (h : crcBit 33800 a 0 = crcBit 33800 b 0) : a = b := by
  have hbit : ∀ x : Nat, x < 65536 → (crcBit 33800 x 0).testBit 15 = decide (x &&& 1 = 1) := by
    intro x hx
    unfold crcBit
    rcases and_one_cases x with h0 | h0 <;>
      simp only [h0, Nat.xor_zero, Nat.zero_xor, ne_eq, reduceIte, one_ne_zero,
        not_false_eq_true, not_true_eq_false, if_true, if_false]
    · have : (x >>> 1).testBit 15 = false := by
        apply Nat.testBit_eq_false_of_lt
        rw [Nat.shiftRight_eq_div_pow]
        norm_num
        omega
      simp [this]
    · rw [Nat.testBit_xor]
      have h1 : (x >>> 1).testBit 15 = false := by
        apply Nat.testBit_eq_false_of_lt
        rw [Nat.shiftRight_eq_div_pow]
        norm_num
        omega
      have h2 : (33800 : Nat).testBit 15 = true := by decide
      simp [h1, h2]
  have hpar : a &&& 1 = b &&& 1 := by
    have := congrArg (fun z => z.testBit 15) h
    simp only [hbit a ha, hbit b hb] at this
    rcases and_one_cases a with h0 | h0 <;> rcases and_one_cases b with h1 | h1 <;>
      simp [h0, h1] at this ⊢
  have hshift : a >>> 1 = b >>> 1 := by
    unfold crcBit at h
    rcases and_one_cases a with h0 | h0
    · have hb0 : b &&& 1 = 0 := by rw [← hpar, h0]
      rw [h0, hb0] at h
      simp only [Nat.xor_zero, ne_eq, not_true_eq_false, if_false, reduceIte] at h
      exact h
    · have hb1 : b &&& 1 = 1 := by rw [← hpar, h0]
      rw [h0, hb1] at h
      simp only [Nat.xor_zero, ne_eq, one_ne_zero, not_false_eq_true, if_true,
        reduceIte] at h
      have := congrArg (fun z => z ^^^ 33800) h
      simpa [Nat.xor_assoc, Nat.xor_self, Nat.xor_zero] using this
  simp only [Nat.and_one_is_mod] at hpar
  rw [Nat.shiftRight_eq_div_pow, Nat.shiftRight_eq_div_pow] at hshift
  norm_num at hshift
  omega

theorem crcBit_inj_samebit {a b bit : Nat} (hbit : bit ≤ 1) (ha : a < 65536)
    (hb : b < 65536) (h : crcBit 33800 a bit = crcBit 33800 b bit) : a = b := by
  match bit, hbit with
  | 0, _ => exact crcBit0_inj ha hb h
  | 1, _ =>
    rw [crcBit_decomp 33800 a 1 le_rfl, crcBit_decomp 33800 b 1 le_rfl] at h
    simp only [reduceIte, if_true] at h
    have h2 : crcBit 33800 a 0 = crcBit 33800 b 0 := by
      have := congrArg (fun z => z ^^^ 33800) h
      simpa [Nat.xor_assoc, Nat.xor_self, Nat.xor_zero] using this
    exact crcBit0_inj ha hb h2

theorem crcBits_state_inj :
    ∀ (k : Nat) {a b : Nat} (cur : Nat), a < 65536 → b < 65536 →
      crcBits 33800 k a cur = crcBits 33800 k b cur → a = b := by
  intro k
  induction k with
  | zero => intro a b cur _ _ h; exact h
  | succ k ih =>
    intro a b cur ha hb h
    have hp : (33800 : Nat) < 65536 := by norm_num
    have hbit : cur &&& 1 ≤ 1 := by rcases and_one_cases cur with h0 | h0 <;> omega
    have hstep := ih (cur >>> 1) (crcBit_lt (cur &&& 1) hp ha)
      (crcBit_lt (cur &&& 1) hp hb) h
    exact crcBit_inj_samebit hbit ha hb hstep

theorem crcFold_lt {a : Nat} (l : List Nat) (ha : a < 65536) :
    l.foldl (fun crc b => crcBits 33800 8 crc (255 &&& b)) a < 65536 := by
  induction l generalizing a with
  | nil => exact ha
  | cons b bs ih => exact ih (crcBits_lt (by norm_num) 8 _ ha)

theorem crcFold_inj :
    ∀ (l : List Nat) {a b : Nat}, a < 65536 → b < 65536 → a ≠ b →
      l.foldl (fun crc x => crcBits 33800 8 crc (255 &&& x)) a ≠
        l.foldl (fun crc x => crcBits 33800 8 crc (255 &&& x)) b := by
  intro l
  induction l with
  | nil => intro a b _ _ hne; exact hne
  | cons x xs ih =>
    intro a b ha hb hne
    simp only [List.foldl_cons]
    apply ih (crcBits_lt (by norm_num) 8 _ ha) (crcBits_lt (by norm_num) 8 _ hb)
    intro heq
    exact hne (crcBits_state_inj 8 (255 &&& x) ha hb heq)

/-- A single byte substitution always changes the raw CRC register. -/
theorem crc16Raw_substitution {pre suf : List Nat} {b c : Nat} (hb : b < 256)
    (hc : c < 256) (hne : b ≠ c) :
    crc16Raw 33800 (pre ++ b :: suf) ≠ crc16Raw 33800 (pre ++ c :: suf) := by
  unfold crc16Raw
  rw [List.foldl_append, List.foldl_append]
  simp only [List.foldl_cons]
  have hs : List.foldl (fun crc x => crcBits 33800 8 crc (255 &&& x)) 65535 pre < 65536 :=
    crcFold_lt pre (by norm_num)
  have hmb : 255 &&& b = b := by rw [Nat.and_comm, and255_eq_mod, Nat.mod_eq_of_lt hb]
  have hmc : 255 &&& c = c := by rw [Nat.and_comm, and255_eq_mod, Nat.mod_eq_of_lt hc]
  apply crcFold_inj suf (crcBits_lt (by norm_num) 8 _ hs) (crcBits_lt (by norm_num) 8 _ hs)
  rw [hmb, hmc]
  intro heq
  exact hne (crcBits_byte_inj hb hc heq)

theorem swap_testBit_low (x i : Nat) (hi : i < 8) :
    ((x <<< 8 ||| x >>> 8 &&& 255) % 65536).testBit i = x.testBit (8 + i) := by
  have h16 : (65536 : Nat) = 2 ^ 16 := by norm_num
  rw [h16, Nat.testBit_mod_two_pow, Nat.testBit_or, Nat.testBit_and,
    Nat.testBit_shiftLeft, Nat.testBit_shiftRight]
  have h255 : (255 : Nat).testBit i = true := by
    have := Nat.testBit_two_pow_sub_one 8 i
    norm_num at this
    rw [this]
    simpa using hi
  have hns : ¬ (8 ≤ i) := by omega
  have hlt : i < 16 := by omega
  simp [hns, h255, hlt]

theorem swap_testBit_high (x i : Nat) (h8 : 8 ≤ i) (h16 : i < 16) :
    ((x <<< 8 ||| x >>> 8 &&& 255) % 65536).testBit i = x.testBit (i - 8) := by
  have he : (65536 : Nat) = 2 ^ 16 := by norm_num
  rw [he, Nat.testBit_mod_two_pow, Nat.testBit_or, Nat.testBit_and,
    Nat.testBit_shiftLeft, Nat.testBit_shiftRight]
  have h255 : (255 : Nat).testBit i = false := by
    have := Nat.testBit_two_pow_sub_one 8 i
    norm_num at this
    rw [this]
    simpa using (by omega : ¬ i < 8)
  simp [h8, h16, h255]

theorem swap_inj {x y : Nat} (hx : x < 65536) (hy : y < 65536)
    (h : (x <<< 8 ||| x >>> 8 &&& 255) % 65536 = (y <<< 8 ||| y >>> 8 &&& 255) % 65536) :
    x = y := by
  apply Nat.eq_of_testBit_eq
  intro i
  by_cases hlt8 : i < 8
  · have hx8 := swap_testBit_high x (i + 8) (by omega) (by omega)
    have hy8 := swap_testBit_high y (i + 8) (by omega) (by omega)
    have := congrArg (fun z => z.testBit (i + 8)) h
    simp only [hx8, hy8] at this
    simpa using this
  · by_cases hlt16 : i < 16
    · have hx8 := swap_testBit_low x (i - 8) (by omega)
      have hy8 := swap_testBit_low y (i - 8) (by omega)
      have := congrArg (fun z => z.testBit (i - 8)) h
      simp only [hx8, hy8] at this
      have he : 8 + (i - 8) = i := by omega
      rwa [he] at this
    · have hxf : x.testBit i = false := by
        apply Nat.testBit_eq_false_of_lt
        calc x < 65536 := hx
          _ = 2 ^ 16 := by norm_num
          _ ≤ 2 ^ i := Nat.pow_le_pow_right (by norm_num) (by omega)
      have hyf : y.testBit i = false := by
        apply Nat.testBit_eq_false_of_lt
        calc y < 65536 := hy
          _ = 2 ^ 16 := by norm_num
          _ ≤ 2 ^ i := Nat.pow_le_pow_right (by norm_num) (by omega)
      rw [hxf, hyf]

/-- A single byte substitution always changes the final CRC value. -/
theorem crc16_substitution {pre suf : List Nat} {b c : Nat} (hb : b < 256)
    (hc : c < 256) (hne : b ≠ c) :
    crc16 33800 (pre ++ b :: suf) ≠ crc16 33800 (pre ++ c :: suf) := by
  intro h
  unfold crc16 at h
  have h1 : crc16Raw 33800 (pre ++ b :: suf) < 65536 := crc16Raw_lt (by norm_num) _
  have h2 : crc16Raw 33800 (pre ++ c :: suf) < 65536 := crc16Raw_lt (by norm_num) _
  have hc1 : crc16Raw 33800 (pre ++ b :: suf) % 65536 ^^^ 65535 < 65536 := by
    have ha : crc16Raw 33800 (pre ++ b :: suf) % 65536 < 2 ^ 16 := by
      norm_num [Nat.mod_lt]
    have hb2 : (65535 : Nat) < 2 ^ 16 := by norm_num
    have := Nat.xor_lt_two_pow ha hb2
    norm_num at this
    omega
  have hc2 : crc16Raw 33800 (pre ++ c :: suf) % 65536 ^^^ 65535 < 65536 := by
    have ha : crc16Raw 33800 (pre ++ c :: suf) % 65536 < 2 ^ 16 := by
      norm_num [Nat.mod_lt]
    have hb2 : (65535 : Nat) < 2 ^ 16 := by norm_num
    have := Nat.xor_lt_two_pow ha hb2
    norm_num at this
    omega
  have hxeq := swap_inj hc1 hc2 h
  have hraw : crc16Raw 33800 (pre ++ b :: suf) = crc16Raw 33800 (pre ++ c :: suf) := by
    have := congrArg (fun z => z ^^^ 65535) hxeq
    simp only [Nat.xor_assoc, Nat.xor_self, Nat.xor_zero] at this
    rwa [Nat.mod_eq_of_lt h1, Nat.mod_eq_of_lt h2] at this
  exact crc16Raw_substitution hb hc hne hraw

/-- A single byte substitution always changes the CRC hex string. -/
theorem getCrcHexString_substitution {pre suf : List Nat} {b c : Nat} (hb : b < 256)
    (hc : c < 256) (hne : b ≠ c) :
    getCrcHexString 33800 (pre ++ b :: suf) ≠ getCrcHexString 33800 (pre ++ c :: suf) := by
  intro h
  exact crc16_substitution hb hc hne
    (toHex4_inj (crc16_lt 33800 _) (crc16_lt 33800 _) h)

theorem digitChr_toNat {k : Nat} (h : k < 10) : (digitChr k).toNat = 48 + k := by
  interval_cases k <;> decide

theorem digitChr_isDigit {k : Nat} (h : k < 10) : (digitChr k).isDigit = true := by
  interval_cases k <;> decide

theorem digitChr_ne_zero {k : Nat} (h1 : 1 ≤ k) (h2 : k < 10) : digitChr k ≠ '0' := by
  interval_cases k <;> decide

theorem natToDecAux_irrel :
    ∀ (m n f1 f2 : Nat), n ≤ m → n ≤ f1 → n ≤ f2 →
      natToDecAux f1 n = natToDecAux f2 n := by
  intro m
  induction m with
  | zero =>
    intro n f1 f2 hm h1 h2
    have hn : n = 0 := by omega
    subst hn
    match f1, f2 with
    | 0, 0 => rfl
    | 0, g + 1 => simp [natToDecAux]
    | g + 1, 0 => simp [natToDecAux]
    | g + 1, g2 + 1 => simp [natToDecAux]
  | succ m ih =>
    intro n f1 f2 hm h1 h2
    by_cases hlt : n < 10
    · match f1, f2 with
      | 0, 0 => rfl
      | 0, g + 1 => simp [natToDecAux, hlt]
      | g + 1, 0 => simp [natToDecAux, hlt]
      | g + 1, g2 + 1 => simp [natToDecAux, hlt]
    · obtain ⟨g, rfl⟩ : ∃ g, f1 = g + 1 := ⟨f1 - 1, by omega⟩
      obtain ⟨g2, rfl⟩ : ∃ g2, f2 = g2 + 1 := ⟨f2 - 1, by omega⟩
      simp only [natToDecAux, if_neg hlt]
      rw [ih (n / 10) g g2 (by omega) (by omega) (by omega)]

/-- Unfolding equation for `natToDec`. -/
theorem natToDec_eq (n : Nat) :
    natToDec n =
      if n < 10 then [digitChr n] else natToDec (n / 10) ++ [digitChr (n % 10)] := by
  show natToDecAux n n = _
  by_cases hlt : n < 10
  · match n, hlt with
    | 0, _ => simp [natToDecAux]
    | k + 1, h => simp [natToDecAux, h]
  · match n, hlt with
    | k + 1, h =>
      simp only [natToDecAux, if_neg h]
      rw [natToDecAux_irrel ((k + 1) / 10) ((k + 1) / 10) k ((k + 1) / 10) le_rfl
        (by omega) le_rfl]
      rfl

theorem decValue_append_digit (ds : List Char) (c : Char) :
    decValue (ds ++ [c]) = decValue ds * 10 + (c.toNat - 48) := by
  unfold decValue
  rw [List.foldl_append]
  rfl

theorem decValue_natToDec (n : Nat) : decValue (natToDec n) = n := by
  induction n using Nat.strong_induction_on with
  | _ n ih =>
    rw [natToDec_eq]
    by_cases hlt : n < 10
    · simp only [if_pos hlt, decValue, List.foldl_cons, List.foldl_nil,
        digitChr_toNat hlt]
      omega
    · simp only [if_neg hlt]
      rw [decValue_append_digit, ih (n / 10) (by omega),
        digitChr_toNat (show n % 10 < 10 by omega)]
      omega

theorem natToDec_digits (n : Nat) : ∀ c ∈ natToDec n, c.isDigit = true := by
  induction n using Nat.strong_induction_on with
  | _ n ih =>
    rw [natToDec_eq]
    by_cases hlt : n < 10
    · simp only [if_pos hlt]
      intro c hc
      simp only [List.mem_singleton] at hc
      subst hc
      exact digitChr_isDigit hlt
    · simp only [if_neg hlt]
      intro c hc
      rw [List.mem_append] at hc
      rcases hc with hc | hc
      · exact ih (n / 10) (by omega) c hc
      · simp only [List.mem_singleton] at hc
        subst hc
        exact digitChr_isDigit (by omega)

theorem natToDec_head (n : Nat) (h : 1 ≤ n) :
    ∃ d ds, natToDec n = d :: ds ∧ d ≠ '0' := by
  induction n using Nat.strong_induction_on with
  | _ n ih =>
    rw [natToDec_eq]
    by_cases hlt : n < 10
    · exact ⟨digitChr n, [], by simp [hlt], digitChr_ne_zero h hlt⟩
    · obtain ⟨d, ds, hds, hd⟩ := ih (n / 10) (by omega) (by omega)
      exact ⟨d, ds ++ [digitChr (n % 10)], by simp only [if_neg hlt, hds]; rfl, hd⟩

theorem span_parts (p : Char → Bool) (s : List Char) :
    (s.span p).1 ++ (s.span p).2 = s := by
  rw [List.span_eq_take_drop]
  show s.takeWhile p ++ s.dropWhile p = s
  exact List.takeWhile_append_dropWhile p s

theorem expectGF_some {s r : List Char} :
    expectGF s = some r ↔ s = '^' :: 'G' :: 'F' :: r := by
  constructor
  · intro h
    unfold expectGF at h
    split at h
    · simp only [Option.some.injEq] at h
      subst h
      rfl
    · exact absurd h (by simp)
  · intro h
    subst h
    rfl

theorem expectComma_some {s r : List Char} :
    expectComma s = some r ↔ s = ',' :: r := by
  constructor
  · intro h
    unfold expectComma at h
    split at h
    · simp only [Option.some.injEq] at h
      subst h
      rfl
    · exact absurd h (by simp)
  · intro h
    subst h
    rfl

theorem parseNum_some {s : List Char} {n : Nat} {rest : List Char}
    (h : parseNum s = some (n, rest)) :
    ∃ d ds, s = (d :: ds) ++ rest ∧ (∀ c ∈ d :: ds, c.isDigit = true) ∧
      d ≠ '0' ∧ n = decValue (d :: ds) := by
  unfold parseNum at h
  split at h
  · exact absurd h (by simp)
  · rename_i d ds dw heq
    by_cases hz : d = '0'
    · rw [if_pos hz] at h
      exact absurd h (by simp)
    · rw [if_neg hz] at h
      simp only [Option.some.injEq, Prod.mk.injEq] at h
      obtain ⟨hn, hrest⟩ := h
      have hparts := span_parts (fun c => c.isDigit) s
      rw [heq] at hparts
      have htake : s.takeWhile (fun c => c.isDigit) = d :: ds := by
        have h2 := (List.span_eq_take_drop (fun c => c.isDigit) s).symm.trans heq
        exact (Prod.mk.injEq _ _ _ _ ▸ h2).1
      refine ⟨d, ds, ?_, ?_, hz, hn.symm⟩
      · rw [← hrest]
        exact hparts.symm
      · intro c hc
        rw [← htake] at hc
        exact List.mem_takeWhile_imp hc

theorem parseNum_length {s : List Char} {n : Nat} {rest : List Char}
    (h : parseNum s = some (n, rest)) : rest.length < s.length := by
  obtain ⟨d, ds, hs, -, -, -⟩ := parseNum_some h
  rw [hs]
  simp only [List.length_append, List.length_cons]
  omega

theorem findFS_some_length :
    ∀ {s d r : List Char}, findFS s = some (d, r) → d.length + 3 + r.length = s.length := by
  intro s
  induction s with
  | nil => intro d r h; exact absurd h (by simp [findFS])
  | cons c cs ih =>
    intro d r h
    unfold findFS at h
    by_cases h1 : c = '^' ∧ cs.take 2 = ['F', 'S']
    · rw [if_pos h1] at h
      simp only [Option.some.injEq, Prod.mk.injEq] at h
      obtain ⟨hd, hr⟩ := h
      have hlen2 : 2 ≤ cs.length := by
        have := congrArg List.length h1.2
        simp only [List.length_take, List.length_cons, List.length_nil] at this
        omega
      subst hd hr
      simp only [List.length_nil, List.length_drop, List.length_cons]
      omega
    · rw [if_neg h1] at h
      by_cases h2 : c = '\n'
      · rw [if_pos h2] at h
        exact absurd h (by simp)
      · rw [if_neg h2] at h
        rcases hfs : findFS cs with - | ⟨dd, rr⟩
        · rw [hfs] at h
          exact absurd h (by simp)
        · rw [hfs] at h
          simp only [Option.some.injEq, Prod.mk.injEq] at h
          obtain ⟨hd, hr⟩ := h
          have := ih hfs
          subst hd hr
          simp only [List.length_cons]
          omega

theorem tryMatch_length {s : List Char} {m : GFMatch} {rest : List Char}
    (h : tryMatch s = some (m, rest)) : rest.length < s.length := by
  unfold tryMatch at h
  rw [Option.bind_eq_some] at h
  obtain ⟨s1, hgf, h⟩ := h
  rw [Option.bind_eq_some] at h
  obtain ⟨s3, hc1, h⟩ := h
  rw [Option.bind_eq_some] at h
  obtain ⟨p1, hp1, h⟩ := h
  rw [Option.bind_eq_some] at h
  obtain ⟨s5, hc2, h⟩ := h
  rw [Option.bind_eq_some] at h
  obtain ⟨p2, hp2, h⟩ := h
  rw [Option.bind_eq_some] at h
  obtain ⟨s7, hc3, h⟩ := h
  rw [Option.bind_eq_some] at h
  obtain ⟨p3, hp3, h⟩ := h
  rw [Option.bind_eq_some] at h
  obtain ⟨s9, hc4, h⟩ := h
  rw [Option.bind_eq_some] at h
  obtain ⟨dr, hfs, h⟩ := h
  simp only [Option.some.injEq, Prod.mk.injEq] at h
  obtain ⟨-, hrest⟩ := h
  rw [expectGF_some] at hgf
  rw [expectComma_some] at hc1 hc2 hc3 hc4
  have hsp : (s1.span (fun c => c == 'A' || c == 'B' || c == 'C')).2.length ≤ s1.length := by
    have := congrArg List.length (span_parts (fun c => c == 'A' || c == 'B' || c == 'C') s1)
    simp only [List.length_append] at this
    omega
  have l1 : s3.length < s1.length := by
    have := congrArg List.length hc1
    simp only [List.length_cons] at this
    omega
  have l2 := parseNum_length hp1
  have l3 : s5.length < p1.2.length := by
    have := congrArg List.length hc2
    simp only [List.length_cons] at this
    omega
  have l4 := parseNum_length hp2
  have l5 : s7.length < p2.2.length := by
    have := congrArg List.length hc3
    simp only [List.length_cons] at this
    omega
  have l6 := parseNum_length hp3
  have l7 : s9.length < p3.2.length := by
    have := congrArg List.length hc4
    simp only [List.length_cons] at this
    omega
  have l8 := findFS_some_length hfs
  have l9 : s.length = s1.length + 3 := by
    rw [hgf]
    simp
  subst hrest
  omega

theorem scanGFAux_irrel :
    ∀ (n : Nat) (s : List Char) (f1 f2 : Nat), s.length ≤ n → s.length ≤ f1 →
      s.length ≤ f2 → scanGFAux f1 s = scanGFAux f2 s := by
  intro n
  induction n with
  | zero =>
    intro s f1 f2 hn h1 h2
    have hs : s = [] := by
      cases s with
      | nil => rfl
      | cons c cs => simp at hn
    subst hs
    match f1, f2 with
    | 0, 0 => rfl
    | 0, g + 1 => rfl
    | g + 1, 0 => rfl
    | g + 1, g2 + 1 => rfl
  | succ n ih =>
    intro s f1 f2 hn h1 h2
    cases s with
    | nil =>
      match f1, f2 with
      | 0, 0 => rfl
      | 0, g + 1 => rfl
      | g + 1, 0 => rfl
      | g + 1, g2 + 1 => rfl
    | cons c cs =>
      obtain ⟨g, rfl⟩ : ∃ g, f1 = g + 1 := ⟨f1 - 1, by simp at h1; omega⟩
      obtain ⟨g2, rfl⟩ : ∃ g2, f2 = g2 + 1 := ⟨f2 - 1, by simp at h2; omega⟩
      rcases htm : tryMatch (c :: cs) with - | ⟨m, rest⟩
      · simp only [scanGFAux, htm]
        simp only [List.length_cons] at hn h1 h2
        exact ih cs g g2 (by omega) (by omega) (by omega)
      · have hlt := tryMatch_length htm
        simp only [scanGFAux, htm]
        simp only [List.length_cons] at hn h1 h2 hlt
        rw [ih rest g g2 (by omega) (by omega) (by omega)]

theorem scanGF_cons_some {c : Char} {cs : List Char} {m : GFMatch} {rest : List Char}
    (h : tryMatch (c :: cs) = some (m, rest)) :
    scanGF (c :: cs) = m :: scanGF rest := by
  show scanGFAux (c :: cs).length (c :: cs) = _
  simp only [List.length_cons, scanGFAux, h]
  have hlt := tryMatch_length h
  simp only [List.length_cons] at hlt
  rw [scanGFAux_irrel rest.length rest cs.length rest.length le_rfl (by omega) le_rfl]
  rfl

theorem scanGF_cons_none {c : Char} {cs : List Char}
    (h : tryMatch (c :: cs) = none) : scanGF (c :: cs) = scanGF cs := by
  show scanGFAux (c :: cs).length (c :: cs) = _
  simp only [List.length_cons, scanGFAux, h]
  rfl

theorem tryMatch_no_gf_head {c : Char} {cs : List Char}
    (h : ¬(c = '^' ∧ cs.take 2 = ['G', 'F'])) : tryMatch (c :: cs) = none := by
  have hgf : expectGF (c :: cs) = none := by
    rcases hx : expectGF (c :: cs) with - | r
    · rfl
    · rw [expectGF_some] at hx
      injection hx with h1 h2
      subst h2
      exact absurd ⟨h1, rfl⟩ h
  unfold tryMatch
  rw [hgf]
  rfl

theorem scanGF_skip_noGF :
    ∀ (sep s : List Char), containsGF sep = false →
      (s = [] ∨ ∃ cs, s = '^' :: cs) → scanGF (sep ++ s) = scanGF s := by
  intro sep
  induction sep with
  | nil => intro s _ _; rfl
  | cons c cs ih =>
    intro s h hs
    have hcond : ¬(c = '^' ∧ cs.take 2 = ['G', 'F']) := by
      intro hc
      rw [show containsGF (c :: cs) = if c = '^' ∧ cs.take 2 = ['G', 'F'] then true
          else containsGF cs from rfl, if_pos hc] at h
      exact absurd h (by simp)
    have htail : containsGF cs = false := by
      rw [show containsGF (c :: cs) = if c = '^' ∧ cs.take 2 = ['G', 'F'] then true
          else containsGF cs from rfl, if_neg hcond] at h
      exact h
    have hnm : ¬(c = '^' ∧ ((cs ++ s).take 2 = ['G', 'F'])) := by
      rintro ⟨rfl, htk⟩
      match cs, htk with
      | a :: b :: rest, htk =>
        simp only [List.cons_append, List.take_cons, List.take_zero] at htk
        injection htk with e1 htk
        injection htk with e2 hrest
        exact hcond ⟨rfl, by rw [e1, e2]; rfl⟩
      | [a], htk =>
        simp only [List.cons_append, List.nil_append, List.take_cons] at htk
        injection htk with e1 htk
        rcases hs with rfl | ⟨cs2, rfl⟩
        · exact absurd htk (by simp)
        · simp only [List.take_cons, List.take_zero] at htk
          injection htk with e2 hrest
          exact absurd e2 (by decide)
      | [], htk =>
        simp only [List.nil_append] at htk
        rcases hs with rfl | ⟨cs2, rfl⟩
        · exact absurd htk (by simp)
        · rw [show ('^' :: cs2).take 2 = '^' :: cs2.take 1 from rfl] at htk
          injection htk with e1 hrest
          exact absurd e1 (by decide)
    rw [List.cons_append, scanGF_cons_none (tryMatch_no_gf_head hnm)]
    exact ih s htail hs

theorem storedBlocks_lt_256 :
    ∀ (n : Nat) (l : List Nat), l.length ≤ n → (∀ b ∈ l, b < 256) →
      ∀ x ∈ storedBlocks l, x < 256 := by
  intro n
  induction n with
  | zero =>
    intro l hn h x hx
    match l with
    | [] =>
      rw [storedBlocks_eq] at hx
      simp only [List.length_nil] at hx
      norm_num at hx
      rcases hx with rfl | rfl | rfl | rfl | rfl | h0 <;> omega
  | succ n ih =>
    intro l hn h x hx
    rw [storedBlocks_eq] at hx
    by_cases hle : l.length ≤ 65535
    · rw [if_pos hle] at hx
      simp only [List.mem_cons] at hx
      rcases hx with rfl | rfl | rfl | rfl | rfl | hx
      · omega
      · omega
      · omega
      · omega
      · omega
      · exact h x hx
    · rw [if_neg hle] at hx
      simp only [List.mem_cons, List.mem_append] at hx
      rcases hx with rfl | rfl | rfl | rfl | rfl | hx | hx
      · omega
      · omega
      · omega
      · omega
      · omega
      · exact h x (List.mem_of_mem_take hx)
      · exact ih (l.drop 65535) (by simp only [List.length_drop]; omega)
          (fun b hb => h b (List.mem_of_mem_drop hb)) x hx

theorem adlerBytes_lt_256 (l : List Nat) : ∀ x ∈ adlerBytes l, x < 256 := by
  intro x hx
  simp only [adlerBytes, List.mem_cons, List.not_mem_nil, or_false] at hx
  rcases hx with rfl | rfl | rfl | rfl <;> omega

theorem zlibCompress_lt_256 {l : List Nat} (h : ∀ b ∈ l, b < 256) :
    ∀ x ∈ zlibCompress l, x < 256 := by
  intro x hx
  simp only [zlibCompress, List.mem_cons, List.mem_append] at hx
  rcases hx with rfl | rfl | hx | hx
  · omega
  · omega
  · exact storedBlocks_lt_256 l.length l le_rfl h x hx
  · exact adlerBytes_lt_256 l x hx

/-! ## Structure of the encoder's payloads -/

theorem hexChar_mem {n : Nat} (h : n < 16) : hexChar n ∈ hexDigits := by
  interval_cases n <;> decide

theorem bytesHex_mem {bs : List Nat} (h : ∀ b ∈ bs, b < 256) :
    ∀ c ∈ bytesHex bs, c ∈ hexDigits := by
  induction bs with
  | nil => intro c hc; cases hc
  | cons b bs ih =>
    have hb : b < 256 := h b (by simp)
    intro c hc
    simp only [bytesHex, List.mem_cons] at hc
    rcases hc with rfl | rfl | hc
    · exact hexChar_mem (by omega)
    · exact hexChar_mem (by omega)
    · exact ih (fun x hx => h x (by simp [hx])) c hc

theorem hexDigits_facts : ∀ c ∈ hexDigits, c ≠ '^' ∧ c ≠ '\n' ∧ c.toNat < 128 ∧
    c ≠ ':' := by decide

theorem b64Alphabet_safe : ∀ c ∈ b64Alphabet, c ≠ '^' ∧ c ≠ '\n' ∧ c.toNat < 128 := by
  decide

theorem hexUpperDigits_safe : ∀ c ∈ hexUpperDigits,
    c ≠ '^' ∧ c ≠ '\n' ∧ c.toNat < 128 := by decide

theorem toHex4_safe (n : Nat) : ∀ c ∈ toHex4 n, c ≠ '^' ∧ c ≠ '\n' ∧ c.toNat < 128 := by
  intro c hc
  simp only [toHex4, List.mem_cons, List.not_mem_nil, or_false] at hc
  rcases hc with rfl | rfl | rfl | rfl <;>
    exact hexUpperDigits_safe _ (hexUpper_mem (by omega))

theorem b64encode_safe {bs : List Nat} (h : ∀ b ∈ bs, b < 256) :
    ∀ c ∈ b64encode bs, c ≠ '^' ∧ c ≠ '\n' ∧ c.toNat < 128 := by
  intro c hc
  rcases b64encode_mem h c hc with hm | rfl
  · exact b64Alphabet_safe c hm
  · decide

/-- Every character of a data string built without line breaks is
neither a caret nor a newline and is ASCII. -/
theorem gfDataString_safe (fmt : GFFormat) (img : Bitmap)
    (h : ∀ b ∈ img.data, b < 256) :
    ∀ c ∈ gfDataString fmt img none, c ≠ '^' ∧ c ≠ '\n' ∧ c.toNat < 128 := by
  intro c hc
  cases fmt with
  | ascii =>
    simp only [gfDataString] at hc
    exact hexDigits_facts c (bytesHex_mem h c hc) |>.imp id (fun x => ⟨x.1, x.2.1⟩)
  | b64 =>
    simp only [gfDataString, List.mem_append, List.mem_cons] at hc
    rcases hc with (hc | hc) | rfl | hc
    · have : c ∈ [':', 'B', '6', '4', ':'] := hc
      fin_cases this <;> decide
    · exact b64encode_safe h c hc
    · decide
    · exact toHex4_safe _ c hc
  | z64 =>
    simp only [gfDataString, List.mem_append, List.mem_cons] at hc
    have hz : ∀ b ∈ zlibCompress img.data, b < 256 := by
      intro b hb
      exact zlibCompress_lt_256 h b hb
    rcases hc with (hc | hc) | rfl | hc
    · have : c ∈ [':', 'Z', '6', '4', ':'] := hc
      fin_cases this <;> decide
    · exact b64encode_safe hz c hc
    · decide
    · exact toHex4_safe _ c hc

theorem pyBody_shape (tag t c4 : List Char) (htag : tag.length = 5)
    (hc4 : c4.length = 4) : pyBody (tag ++ t ++ ':' :: c4) = t := by
  unfold pyBody
  have hlen : (tag ++ t ++ ':' :: c4).length = t.length + 10 := by
    simp only [List.length_append, List.length_cons, htag, hc4]
    omega
  rw [hlen]
  have h1 : (tag ++ t ++ ':' :: c4) = tag ++ (t ++ ':' :: c4) := by
    rw [List.append_assoc]
  rw [h1]
  have h2 : t.length + 10 - 5 = tag.length + t.length := by omega
  rw [h2, List.take_append, List.drop_left' htag]
  have h3 : (':' :: c4).take 0 = [] := by simp
  rw [show t.length = t.length + 0 from rfl, List.take_append, h3, List.append_nil]

theorem pyTail4_shape (tag t c4 : List Char) (htag : tag.length = 5)
    (hc4 : c4.length = 4) : pyTail4 (tag ++ t ++ ':' :: c4) = c4 := by
  unfold pyTail4
  have hlen : (tag ++ t ++ ':' :: c4).length = t.length + 10 := by
    simp only [List.length_append, List.length_cons, htag, hc4]
    omega
  rw [hlen]
  have h1 : tag ++ t ++ ':' :: c4 = (tag ++ t ++ [':']) ++ c4 := by
    simp [List.append_assoc]
  rw [h1]
  have h2 : (tag ++ t ++ [':']).length = t.length + 10 - 4 := by
    simp only [List.length_append, List.length_cons, List.length_nil, htag]
    omega
  rw [List.drop_left' h2]

theorem takeWhile_append_stop {p : Char → Bool} :
    ∀ (xs : List Char) {y : Char} (ys : List Char), (∀ c ∈ xs, p c = true) →
      p y = false →
      (xs ++ y :: ys).takeWhile p = xs ∧ (xs ++ y :: ys).dropWhile p = y :: ys := by
  intro xs
  induction xs with
  | nil =>
    intro y ys _ hy
    simp [List.takeWhile, List.dropWhile, hy]
  | cons x xs ih =>
    intro y ys hx hy
    have hpx : p x = true := hx x (by simp)
    obtain ⟨h1, h2⟩ := ih ys (fun c hc => hx c (by simp [hc])) hy
    constructor
    · simp only [List.cons_append, List.takeWhile_cons, hpx, if_true, h1]
    · simp only [List.cons_append, List.dropWhile_cons, hpx, if_true, h2]

theorem parseNum_render (n : Nat) (hn : 1 ≤ n) (r : List Char) :
    parseNum (natToDec n ++ ',' :: r) = some (n, ',' :: r) := by
  have hdig : ∀ c ∈ natToDec n, (fun c : Char => c.isDigit) c = true :=
    fun c hc => natToDec_digits n c hc
  have hcomma : (',' : Char).isDigit = false := by decide
  obtain ⟨htw, hdw⟩ := takeWhile_append_stop (natToDec n) r hdig hcomma
  obtain ⟨d, ds, hds, hd0⟩ := natToDec_head n hn
  unfold parseNum
  rw [List.span_eq_take_drop, htw, hdw, hds]
  show (if d = '0' then none else some (decValue (d :: ds), ',' :: r)) = _
  rw [if_neg hd0, ← hds, decValue_natToDec]

theorem findFS_data :
    ∀ (data rest : List Char), (∀ c ∈ data, c ≠ '^' ∧ c ≠ '\n') →
      findFS (data ++ '^' :: 'F' :: 'S' :: rest) = some (data, rest) := by
  intro data
  induction data with
  | nil =>
    intro rest _
    simp [findFS]
  | cons c cs ih =>
    intro rest h
    have hc := h c (by simp)
    rw [List.cons_append]
    unfold findFS
    rw [if_neg (by simp [hc.1]), if_neg hc.2]
    rw [ih rest (fun x hx => h x (by simp [hx]))]

theorem span_letters_A (t : List Char) :
    (('A' :: ',' :: t).span (fun c => c == 'A' || c == 'B' || c == 'C')) =
      (['A'], ',' :: t) := by
  rw [List.span_eq_take_drop]
  simp [List.takeWhile_cons, List.dropWhile_cons]

/-- GF_MATCHER applied at the start of an emitted directive followed by
arbitrary text: the match consumes exactly the directive and captures
the letter A, the three numbers and the data. -/
theorem tryMatch_directive (bbc gfc bpr : Nat) (h1 : 1 ≤ bbc) (h2 : 1 ≤ gfc)
    (h3 : 1 ≤ bpr) (data rest : List Char)
    (hdata : ∀ c ∈ data, c ≠ '^' ∧ c ≠ '\n') :
    tryMatch (("^GFA,").toList ++ natToDec bbc ++ ',' :: natToDec gfc ++
        ',' :: natToDec bpr ++ ',' :: data ++ ("^FS").toList ++ rest) =
      some (⟨['A'], bbc, gfc, bpr, data⟩, rest) := by
  rw [show ("^GFA,").toList = '^' :: 'G' :: 'F' :: 'A' :: ',' :: [] from rfl]
  unfold tryMatch
  simp only [List.append_assoc]
  rw [show ∀ z : List Char,
      expectGF ('^' :: 'G' :: 'F' :: 'A' :: ',' :: [] ++ z) = some ('A' :: ',' :: z)
    from fun z => rfl]
  simp only [Option.bind_eq_bind, Option.some_bind]
  rw [span_letters_A]
  simp only []
  rw [show ∀ z : List Char, expectComma (',' :: z) = some z from fun z => rfl]
  simp only [Option.some_bind, List.cons_append]
  rw [parseNum_render bbc h1]
  simp only [Option.some_bind]
  rw [show ∀ z : List Char, expectComma (',' :: z) = some z from fun z => rfl]
  simp only [Option.some_bind]
  rw [parseNum_render gfc h2]
  simp only [Option.some_bind]
  rw [show ∀ z : List Char, expectComma (',' :: z) = some z from fun z => rfl]
  simp only [Option.some_bind]
  rw [parseNum_render bpr h3]
  simp only [Option.some_bind]
  rw [show ∀ z : List Char, expectComma (',' :: z) = some z from fun z => rfl]
  simp only [Option.some_bind]
  rw [show ("^FS").toList ++ rest = '^' :: 'F' :: 'S' :: rest from rfl]
  rw [findFS_data data rest hdata]
  simp only [Option.some_bind]

theorem not_prefix_of_head {c : Char} (cs ts : List Char) (h : (':' : Char) ≠ c) :
    (':' :: ts).isPrefixOf (c :: cs) = false := by
  show ((':' == c) && ts.isPrefixOf cs) = false
  rw [show (':' == c) = false from beq_eq_false_iff_ne.mpr h, Bool.false_and]

theorem dims_of_valid {img : Bitmap} (hv : validBitmap img) :
    matchDimensions (gfGraphicFieldCount img) (gfBytesPerRow img) =
      (gfBytesPerRow img * 8, img.height) := by
  obtain ⟨hw, hh, hlen, hbytes⟩ := hv
  have hbpr : 1 ≤ gfBytesPerRow img := by
    unfold gfBytesPerRow
    omega
  unfold matchDimensions gfGraphicFieldCount
  rw [Nat.mul_div_cancel_left img.height (by omega : 0 < gfBytesPerRow img)]

theorem pil_of_valid {img : Bitmap} (hv : validBitmap img) :
    pilFrombytes (gfBytesPerRow img * 8) img.height img.data =
      .ok (decodedOf img) := by
  obtain ⟨hw, hh, hlen, hbytes⟩ := hv
  unfold pilFrombytes
  have hrow : rowBytes (gfBytesPerRow img * 8) = gfBytesPerRow img := by
    unfold rowBytes gfBytesPerRow
    omega
  rw [hrow, if_pos (by rw [hlen]; rfl)]
  rfl

/-- The to_images loop body succeeds on the match of an emitted
directive and reconstructs the bitmap with the width rounded up to the
byte boundary. -/
theorem processMatch_directive (fmt : GFFormat) (img : Bitmap) (bbcX : Nat)
    (hv : validBitmap img) :
    processMatch ⟨['A'], bbcX, gfGraphicFieldCount img, gfBytesPerRow img,
        gfDataString fmt img none⟩ = .ok (decodedOf img) := by
  obtain ⟨hw, hh, hlen, hbytes⟩ := hv
  have hv2 : validBitmap img := ⟨hw, hh, hlen, hbytes⟩
  cases fmt with
  | ascii =>
    have hdata : gfDataString GFFormat.ascii img none = bytesHex img.data := rfl
    obtain ⟨b, bs, hbs⟩ : ∃ b bs, img.data = b :: bs := by
      match hd : img.data with
      | [] =>
        rw [hd] at hlen
        simp only [List.length_nil] at hlen
        have h1 : 1 ≤ rowBytes img.width := by unfold rowBytes; omega
        nlinarith [hlen.symm]
      | b :: bs => exact ⟨b, bs, rfl⟩
    have hb : b < 256 := hbytes b (by rw [hbs]; simp)
    have hhex : bytesHex img.data = hexChar (b / 16) :: hexChar (b % 16) ::
        bytesHex bs := by rw [hbs]; rfl
    have hhead : (':' : Char) ≠ hexChar (b / 16) := by
      have := hexDigits_facts (hexChar (b / 16)) (hexChar_mem (by omega : b / 16 < 16))
      exact fun heq => this.2.2.2 heq.symm
    have hz : (":Z64").toList.isPrefixOf (bytesHex img.data) = false := by
      rw [hhex, show (":Z64").toList = ':' :: ('Z' :: '6' :: '4' :: []) from rfl]
      exact not_prefix_of_head _ _ hhead
    have hb64 : (":B64").toList.isPrefixOf (bytesHex img.data) = false := by
      rw [hhex, show (":B64").toList = ':' :: ('B' :: '6' :: '4' :: []) from rfl]
      exact not_prefix_of_head _ _ hhead
    unfold processMatch
    simp only [hz, hb64, hdata, fromhex_bytesHex hbytes, dims_of_valid hv2,
      ne_eq, not_true_eq_false, if_false, Bool.false_eq_true, or_self,
      reduceIte]
    exact pil_of_valid hv2
  | b64 =>
    have ht : ∀ c ∈ b64encode img.data, c.toNat < 128 :=
      fun c hc => (b64encode_safe hbytes c hc).2.2
    have hdata : gfDataString GFFormat.b64 img none =
        (":B64:").toList ++ b64encode img.data ++
          ':' :: getCrcHexString 33800 ((b64encode img.data).map Char.toNat) := rfl
    have hbody : pyBody (gfDataString GFFormat.b64 img none) = b64encode img.data := by
      rw [hdata]
      exact pyBody_shape _ _ _ rfl (toHex4_length _)
    have htail : pyTail4 (gfDataString GFFormat.b64 img none) =
        getCrcHexString 33800 ((b64encode img.data).map Char.toNat) := by
      rw [hdata]
      exact pyTail4_shape _ _ _ rfl (toHex4_length _)
    have hmarker : (":B64").toList.isPrefixOf (gfDataString GFFormat.b64 img none) =
        true := by rw [hdata]; rfl
    have hnozm : (":Z64").toList.isPrefixOf (gfDataString GFFormat.b64 img none) =
        false := by rw [hdata]; rfl
    have henc : encodeAscii (b64encode img.data) =
        some ((b64encode img.data).map Char.toNat) := by
      unfold encodeAscii
      rw [if_pos]
      simp only [List.all_eq_true, decide_eq_true_eq]
      exact ht
    unfold processMatch
    simp only [hbody, htail, hmarker, hnozm, henc, b64decode_b64encode hbytes,
      dims_of_valid hv2, ne_eq, not_true_eq_false, if_false, Bool.false_eq_true,
      or_true, if_true, reduceIte]
    exact pil_of_valid hv2
  | z64 =>
    have hzbytes : ∀ b ∈ zlibCompress img.data, b < 256 := zlibCompress_lt_256 hbytes
    have ht : ∀ c ∈ b64encode (zlibCompress img.data), c.toNat < 128 :=
      fun c hc => (b64encode_safe hzbytes c hc).2.2
    have hdata : gfDataString GFFormat.z64 img none =
        (":Z64:").toList ++ b64encode (zlibCompress img.data) ++
          ':' :: getCrcHexString 33800
            ((b64encode (zlibCompress img.data)).map Char.toNat) := rfl
    have hbody : pyBody (gfDataString GFFormat.z64 img none) =
        b64encode (zlibCompress img.data) := by
      rw [hdata]
      exact pyBody_shape _ _ _ rfl (toHex4_length _)
    have htail : pyTail4 (gfDataString GFFormat.z64 img none) =
        getCrcHexString 33800 ((b64encode (zlibCompress img.data)).map Char.toNat) := by
      rw [hdata]
      exact pyTail4_shape _ _ _ rfl (toHex4_length _)
    have hmarker : (":Z64").toList.isPrefixOf (gfDataString GFFormat.z64 img none) =
        true := by rw [hdata]; rfl
    have henc : encodeAscii (b64encode (zlibCompress img.data)) =
        some ((b64encode (zlibCompress img.data)).map Char.toNat) := by
      unfold encodeAscii
      rw [if_pos]
      simp only [List.all_eq_true, decide_eq_true_eq]
      exact ht
    unfold processMatch
    simp only [hbody, htail, hmarker, henc, b64decode_b64encode hzbytes,
      zlibDecompress_zlibCompress, dims_of_valid hv2, ne_eq, not_true_eq_false,
      if_false, Bool.false_eq_true, true_or, if_true, reduceIte]
    exact pil_of_valid hv2

theorem gfDataString_ne_nil (fmt : GFFormat) (img : Bitmap) (hv : validBitmap img) :
    gfDataString fmt img none ≠ [] := by
  obtain ⟨hw, hh, hlen, hbytes⟩ := hv
  cases fmt with
  | ascii =>
    show bytesHex img.data ≠ []
    match hd : img.data with
    | [] =>
      rw [hd] at hlen
      simp only [List.length_nil] at hlen
      have h1 : 1 ≤ rowBytes img.width := by unfold rowBytes; omega
      nlinarith [hlen.symm]
    | b :: bs => simp [bytesHex]
  | b64 =>
    show (":B64:").toList ++ _ ++ _ ≠ []
    simp
  | z64 =>
    show (":Z64:").toList ++ _ ++ _ ≠ []
    simp

theorem tryMatch_getGraphicField (fmt : GFFormat) (img : Bitmap)
    (hv : validBitmap img) (rest : List Char) :
    tryMatch (getGraphicField fmt img none ++ rest) = some (matchOf fmt img, rest) := by
  have hbbc : 1 ≤ gfBinaryByteCount fmt img none := by
    unfold gfBinaryByteCount
    have := gfDataString_ne_nil fmt img hv
    cases hd : gfDataString fmt img none with
    | nil => exact absurd hd this
    | cons c cs => simp [hd]
  have hgfc : 1 ≤ gfGraphicFieldCount img := by
    obtain ⟨hw, hh, hlen, hbytes⟩ := hv
    unfold gfGraphicFieldCount gfBytesPerRow
    have h1 : 1 ≤ (img.width + 7) / 8 := by omega
    nlinarith
  have hbpr : 1 ≤ gfBytesPerRow img := by
    obtain ⟨hw, hh, hlen, hbytes⟩ := hv
    unfold gfBytesPerRow
    omega
  have hdata : ∀ c ∈ gfDataString fmt img none, c ≠ '^' ∧ c ≠ '\n' := by
    intro c hc
    have := gfDataString_safe fmt img hv.2.2.2 c hc
    exact ⟨this.1, this.2.1⟩
  unfold getGraphicField
  exact tryMatch_directive _ _ _ hbbc hgfc hbpr _ rest hdata

theorem tryMatch_nil : tryMatch [] = none := rfl

theorem scanGF_of_tryMatch {s : List Char} {m : GFMatch} {rest : List Char}
    (h : tryMatch s = some (m, rest)) : scanGF s = m :: scanGF rest := by
  cases s with
  | nil => exact absurd h (by simp [tryMatch_nil])
  | cons c cs => exact scanGF_cons_some h

theorem getGraphicField_head (fmt : GFFormat) (img : Bitmap) (x : List Char) :
    ∃ cs, getGraphicField fmt img none ++ x = '^' :: cs := by
  unfold getGraphicField
  rw [show ("^GFA,").toList = '^' :: ('G' :: 'F' :: 'A' :: ',' :: []) from rfl]
  simp only [List.cons_append, List.append_assoc]
  exact ⟨_, rfl⟩

theorem scanGF_docOf :
    ∀ (entries : List DocEntry) (post : List Char),
      (∀ e ∈ entries, validBitmap e.img ∧ containsGF e.sep = false) →
      containsGF post = false →
      scanGF (docOf entries post) = entries.map (fun e => matchOf e.fmt e.img) := by
  intro entries
  induction entries with
  | nil =>
    intro post _ hpost
    have := scanGF_skip_noGF post [] hpost (Or.inl rfl)
    rw [List.append_nil] at this
    exact this
  | cons e es ih =>
    intro post hent hpost
    obtain ⟨hv, hsep⟩ := hent e (by simp)
    show scanGF (e.sep ++ _) = _
    rw [scanGF_skip_noGF _ _ hsep (Or.inr (getGraphicField_head e.fmt e.img _)),
      scanGF_of_tryMatch (tryMatch_getGraphicField e.fmt e.img hv (docOf es post)),
      ih post (fun x hx => hent x (by simp [hx])) hpost]
    rfl

theorem processAll_matches :
    ∀ (entries : List DocEntry), (∀ e ∈ entries, validBitmap e.img) →
      processAll (entries.map (fun e => matchOf e.fmt e.img)) =
        .ok (entries.map (fun e => decodedOf e.img)) := by
  intro entries
  induction entries with
  | nil => intro _; rfl
  | cons e es ih =>
    intro h
    simp only [List.map_cons, processAll]
    rw [show processMatch (matchOf e.fmt e.img) = .ok (decodedOf e.img) from
      processMatch_directive e.fmt e.img _ (h e (by simp))]
    rw [ih (fun x hx => h x (by simp [hx]))]

/-- to_images on an interleaved document: one bitmap per directive, in
source order. -/
theorem toImages_docOf (entries : List DocEntry) (post : List Char)
    (hent : ∀ e ∈ entries, validBitmap e.img ∧ containsGF e.sep = false)
    (hpost : containsGF post = false) (hne : entries ≠ []) :
    toImages (docOf entries post) = .ok (entries.map (fun e => decodedOf e.img)) := by
  unfold toImages
  rw [scanGF_docOf entries post hent hpost]
  cases entries with
  | nil => exact absurd rfl hne
  | cons e es =>
    simp only [List.map_cons]
    exact processAll_matches (e :: es) (fun x hx => (hent x hx).1)

theorem chunksAux_irrel :
    ∀ (m : Nat) (s : List Char) (n f1 f2 : Nat), 1 ≤ n → s.length ≤ m →
      s.length ≤ f1 → s.length ≤ f2 → chunksAux f1 n s = chunksAux f2 n s := by
  intro m
  induction m with
  | zero =>
    intro s n f1 f2 hn hm h1 h2
    have hs : s = [] := by
      cases s with
      | nil => rfl
      | cons c cs => simp at hm
    subst hs
    match f1, f2 with
    | 0, 0 => rfl
    | 0, g + 1 => simp [chunksAux]
    | g + 1, 0 => simp [chunksAux]
    | g + 1, g2 + 1 => simp [chunksAux]
  | succ m ih =>
    intro s n f1 f2 hn hm h1 h2
    cases s with
    | nil =>
      match f1, f2 with
      | 0, 0 => rfl
      | 0, g + 1 => simp [chunksAux]
      | g + 1, 0 => simp [chunksAux]
      | g + 1, g2 + 1 => simp [chunksAux]
    | cons c cs =>
      obtain ⟨g, rfl⟩ : ∃ g, f1 = g + 1 := ⟨f1 - 1, by simp at h1; omega⟩
      obtain ⟨g2, rfl⟩ : ∃ g2, f2 = g2 + 1 := ⟨f2 - 1, by simp at h2; omega⟩
      simp only [chunksAux, if_neg (by simp : ¬ (c :: cs : List Char) = [])]
      have hd : ((c :: cs).drop n).length ≤ m := by
        simp only [List.length_drop, List.length_cons] at hm ⊢
        omega
      rw [ih ((c :: cs).drop n) n g g2 hn hd
        (by simp only [List.length_drop, List.length_cons] at h1 ⊢; omega)
        (by simp only [List.length_drop, List.length_cons] at h2 ⊢; omega)]

theorem chunks_eq (n : Nat) (hn : 1 ≤ n) (s : List Char) :
    chunks n s = if s = [] then [] else s.take n :: chunks n (s.drop n) := by
  show chunksAux s.length n s = _
  cases s with
  | nil => rfl
  | cons c cs =>
    simp only [List.length_cons, chunksAux, if_neg (by simp : ¬ (c :: cs : List Char) = [])]
    rw [chunksAux_irrel ((c :: cs).drop n).length ((c :: cs).drop n) n
      (cs.length) ((c :: cs).drop n).length hn le_rfl
      (by simp only [List.length_drop, List.length_cons]; omega) le_rfl]
    rfl

theorem insertLineBreaks_length (n : Nat) (hn : 1 ≤ n) :
    ∀ (m : Nat) (s : List Char), s.length ≤ m →
      (insertLineBreaks n s).length =
        s.length + (if s.length = 0 then 0 else (s.length - 1) / n) := by
  intro m
  induction m with
  | zero =>
    intro s hm
    have hs : s = [] := by
      cases s with
      | nil => rfl
      | cons c cs => simp at hm
    subst hs
    rfl
  | succ m ih =>
    intro s hm
    show (joinNL (chunks n s)).length = _
    cases hs : s with
    | nil => rfl
    | cons c cs =>
      rw [← hs]
      have hne : s ≠ [] := by rw [hs]; simp
      have hL : 1 ≤ s.length := by rw [hs]; simp
      by_cases hle : s.length ≤ n
      · have hdrop : s.drop n = [] := by
          rw [List.drop_eq_nil_iff]
          omega
        have hchunks : chunks n s = [s.take n] := by
          rw [chunks_eq n hn s, if_neg hne, hdrop, chunks_eq n hn [], if_pos rfl]
        rw [hchunks]
        show (s.take n).length = _
        simp only [List.length_take]
        rw [if_neg (by omega)]
        have : (s.length - 1) / n = 0 := Nat.div_eq_of_lt (by omega)
        omega
      · have hdll : (s.drop n).length = s.length - n := by simp [List.length_drop]
        have hdne : s.drop n ≠ [] := by
          rw [← List.length_pos_iff_ne_nil, hdll]
          omega
        obtain ⟨y, ys, hys⟩ : ∃ y ys, chunks n (s.drop n) = y :: ys := by
          rw [chunks_eq n hn (s.drop n), if_neg hdne]
          exact ⟨_, _, rfl⟩
        have hchunks : chunks n s = s.take n :: y :: ys := by
          rw [chunks_eq n hn s, if_neg hne, hys]
        rw [hchunks]
        have hjoin : joinNL (s.take n :: y :: ys) = s.take n ++ '\n' :: joinNL (y :: ys) :=
          rfl
        rw [hjoin, ← hys]
        have ihd := ih (s.drop n) (by rw [hdll]; omega)
        have hid : (joinNL (chunks n (s.drop n))).length =
            (insertLineBreaks n (s.drop n)).length := rfl
        simp only [List.length_append, List.length_cons, List.length_take, hid, ihd,
          hdll]
        rw [if_neg (by omega), if_neg (by omega)]
        have harith : (s.length - 1) / n = (s.length - n - 1) / n + 1 := by
          have he : s.length - 1 = (s.length - n - 1) + n := by omega
          rw [he, Nat.add_div_right _ (by omega)]
        omega

/-- C1 counterexample: a valid 4-by-1 bitmap round-trips through the
ASCII format into a bitmap of width 8, not 4, so the round trip is not
bit-for-bit as claimed. -/
theorem claim_C1_counterexample :
    validBitmap ⟨4, 1, [240]⟩ ∧
      toImages (getGraphicField GFFormat.ascii ⟨4, 1, [240]⟩ none) =
        Except.ok [⟨8, 1, [240]⟩] ∧
      (⟨8, 1, [240]⟩ : Bitmap) ≠ ⟨4, 1, [240]⟩ := by
  refine ⟨by decide, by decide, by decide⟩

/-- C1 (amended): encoding a valid bitmap in any of the three formats
and parsing the directive yields exactly one bitmap with the width
rounded up to the byte boundary, the same height and the same packed
data; it is bit-for-bit equal to the input exactly when the width is a
multiple of eight. -/
theorem claim_C1 (fmt : GFFormat) (img : Bitmap) (hv : validBitmap img) :
    toImages (getGraphicField fmt img none) = Except.ok [decodedOf img] ∧
      decodedOf img = ⟨rowBytes img.width * 8, img.height, img.data⟩ ∧
      (img.width % 8 = 0 → decodedOf img = img) := by
  refine ⟨?_, rfl, ?_⟩
  · have hdoc := toImages_docOf [⟨[], img, fmt⟩] []
      (by intro e he; simp only [List.mem_singleton] at he; subst he
          exact ⟨hv, rfl⟩)
      rfl (by simp)
    simp only [docOf, List.nil_append, List.append_nil, List.map_cons,
      List.map_nil] at hdoc
    exact hdoc
  · intro h8
    obtain ⟨hw, hh, hlen, hbytes⟩ := hv
    have hwidth : gfBytesPerRow img * 8 = img.width := by
      unfold gfBytesPerRow
      omega
    unfold decodedOf
    rw [hwidth]

/-- C1 witness. -/
theorem claim_C1_witness :
    toImages (getGraphicField GFFormat.z64 ⟨8, 1, [170]⟩ none) =
        Except.ok [decodedOf ⟨8, 1, [170]⟩] ∧
      decodedOf ⟨8, 1, [170]⟩ = ⟨rowBytes 8 * 8, 1, [170]⟩ ∧
      ((8 : Nat) % 8 = 0 → decodedOf ⟨8, 1, [170]⟩ = ⟨8, 1, [170]⟩) :=
  claim_C1 GFFormat.z64 ⟨8, 1, [170]⟩ (by decide)

/-- C2: for every byte input and every polynomial, the CRC computation
equals the specification's description of it step for step, and the hex
rendering is the four-digit zero-padded uppercase hexadecimal form of
that 16-bit value. -/
theorem claim_C2 (poly : Nat) (data : List Nat) (h : ∀ b ∈ data, b < 256) :
    crc16 poly data = crc16SpecModel poly data ∧
      getCrcHexString poly data = toHex4 (crc16SpecModel poly data) ∧
      (getCrcHexString poly data).length = 4 ∧
      (∀ c ∈ getCrcHexString poly data, c ∈ hexUpperDigits) ∧
      hex4Value (getCrcHexString poly data) = crc16 poly data := by
  have heq := crc16_spec_eq poly data h
  refine ⟨heq, ?_, toHex4_length _, ?_, ?_⟩
  · unfold getCrcHexString
    rw [heq]
  · intro c hc
    unfold getCrcHexString toHex4 at hc
    simp only [List.mem_cons, List.not_mem_nil, or_false] at hc
    rcases hc with rfl | rfl | rfl | rfl <;> exact hexUpper_mem (by omega)
  · exact hex4Value_toHex4 (crc16_lt poly data)

/-- C2 witness. -/
theorem claim_C2_witness :
    crc16 33800 [1, 2, 3] = crc16SpecModel 33800 [1, 2, 3] ∧
      getCrcHexString 33800 [1, 2, 3] = toHex4 (crc16SpecModel 33800 [1, 2, 3]) ∧
      (getCrcHexString 33800 [1, 2, 3]).length = 4 ∧
      (∀ c ∈ getCrcHexString 33800 [1, 2, 3], c ∈ hexUpperDigits) ∧
      hex4Value (getCrcHexString 33800 [1, 2, 3]) = crc16 33800 [1, 2, 3] :=
  claim_C2 33800 [1, 2, 3] (by decide)

/-- C6 counterexample: the directive emitted for the B64 and Z64
formats still carries the format letter A, not B or C. -/
theorem claim_C6_counterexample :
    (getGraphicField GFFormat.b64 ⟨8, 1, [0]⟩ none).take 4 = ("^GFA").toList ∧
      (getGraphicField GFFormat.z64 ⟨8, 1, [0]⟩ none).take 4 = ("^GFA").toList ∧
      ("^GFA").toList ≠ ("^GFB").toList ∧ ("^GFA").toList ≠ ("^GFC").toList := by
  refine ⟨by decide, by decide, by decide, by decide⟩

/-- C6 (amended): for every bitmap and every chosen format the emitted
directive begins with the literal ^GFA, — the format letter is always
A. -/
theorem claim_C6 (fmt : GFFormat) (img : Bitmap) (slb : Option Nat) :
    (getGraphicField fmt img slb).take 5 = ("^GFA,").toList := by
  unfold getGraphicField
  simp only [List.append_assoc]
  exact List.take_left' rfl

/-- C7 counterexample: with a line-break width of 3, the emitted
binaryByteCount for a two-byte image is 5 (the newline is counted),
while without line breaks it is 4. -/
theorem claim_C7_counterexample :
    gfBinaryByteCount GFFormat.ascii ⟨16, 1, [240, 170]⟩ (some 3) = 5 ∧
      gfBinaryByteCount GFFormat.ascii ⟨16, 1, [240, 170]⟩ none = 4 ∧ (5 : Nat) ≠ 4 := by
  refine ⟨by decide, by decide, by decide⟩

/-- C7 (amended): the emitted binaryByteCount is the length of the
payload string after line-break insertion: for a break width n it adds
floor((L-1)/n) newline characters to the no-break length L, so it
changes whenever n < L. -/
theorem claim_C7 (fmt : GFFormat) (img : Bitmap) (n : Nat) (hn : 1 ≤ n) :
    gfBinaryByteCount fmt img (some n) =
      gfBinaryByteCount fmt img none +
        (if gfBinaryByteCount fmt img none = 0 then 0
         else (gfBinaryByteCount fmt img none - 1) / n) := by
  have hds : gfDataString fmt img (some n) =
      insertLineBreaks n (gfDataString fmt img none) := by
    show (if n = 0 then gfDataString fmt img none
      else insertLineBreaks n (gfDataString fmt img none)) = _
    rw [if_neg (by omega : ¬ n = 0)]
  unfold gfBinaryByteCount
  rw [hds]
  exact insertLineBreaks_length n hn (gfDataString fmt img none).length _ le_rfl

/-- C7 witness. -/
theorem claim_C7_witness :
    gfBinaryByteCount GFFormat.ascii ⟨16, 1, [240, 170]⟩ (some 3) =
      gfBinaryByteCount GFFormat.ascii ⟨16, 1, [240, 170]⟩ none +
        (if gfBinaryByteCount GFFormat.ascii ⟨16, 1, [240, 170]⟩ none = 0 then 0
         else (gfBinaryByteCount GFFormat.ascii ⟨16, 1, [240, 170]⟩ none - 1) / 3) :=
  claim_C7 GFFormat.ascii ⟨16, 1, [240, 170]⟩ 3 (by decide)

/-- C10 counterexample: the empty bytes object is accepted by the CRC
constructor and checksummed (to 0000), not refused. -/
theorem claim_C10_counterexample :
    crcDataBytesSetter (PyVal.pyBytes []) = Except.ok [] ∧
      getCrcHexString 33800 [] = ("0000").toList := by
  refine ⟨rfl, by decide⟩

/-- C10 (amended): the CRC constructor rejects None with a ValueError
and non-bytes values with a TypeError, but accepts every bytes object,
including the empty one. -/
theorem claim_C10 :
    crcDataBytesSetter PyVal.pyNone = Except.error PyError.valueError ∧
      (∀ n : Int, crcDataBytesSetter (PyVal.pyInt n) = Except.error PyError.typeError) ∧
      (∀ s : List Char, crcDataBytesSetter (PyVal.pyStr s) =
        Except.error PyError.typeError) ∧
      (∀ d : List Nat, crcDataBytesSetter (PyVal.pyBytes d) = Except.ok d) :=
  ⟨rfl, fun _ => rfl, fun _ => rfl, fun _ => rfl⟩

/-- C5 counterexample: a directive declared ^GFB whose payload carries
the :Z64: marker fails with the invalid-compression error, even though
the same payload under ^GFA decodes to a bitmap. -/
theorem claim_C5_counterexample :
    (":Z64").toList.isPrefixOf (gfDataString GFFormat.z64 ⟨8, 1, [0]⟩ none) = true ∧
      toImages (("^GFB,26,1,1,").toList ++ gfDataString GFFormat.z64 ⟨8, 1, [0]⟩ none ++
          ("^FS").toList) = Except.error ZplError.invalidCompression ∧
      toImages (("^GFA,26,1,1,").toList ++ gfDataString GFFormat.z64 ⟨8, 1, [0]⟩ none ++
          ("^FS").toList) = Except.ok [⟨8, 1, [0]⟩] := by
  refine ⟨by decide, by decide, by decide⟩

/-- C5 (amended): the payload's embedded tag selects the decode path
only within directives declared ^GFA; for any other letters group,
including B and C, the parser fails with the invalid-compression error
before looking at the payload. -/
theorem claim_C5 (m : GFMatch) (h : m.letters ≠ ['A']) :
    processMatch m = Except.error ZplError.invalidCompression := by
  unfold processMatch
  rw [if_pos h]

/-- C5 witness. -/
theorem claim_C5_witness :
    processMatch ⟨['B'], 26, 1, 1, gfDataString GFFormat.z64 ⟨8, 1, [0]⟩ none⟩ =
      Except.error ZplError.invalidCompression :=
  claim_C5 ⟨['B'], 26, 1, 1, gfDataString GFFormat.z64 ⟨8, 1, [0]⟩ none⟩ (by decide)

/-- C4 counterexample: the directive ^GFA,4,3,2,f0a5^FS has
graphicFieldCount 3 not divisible by bytesPerRow 2, yet to_images
returns a bitmap (height floor(3/2) = 1) instead of failing. -/
theorem claim_C4_counterexample :
    ¬ (2 ∣ 3) ∧
      scanGF (("^GFA,4,3,2,f0a5^FS").toList) =
        [⟨['A'], 4, 3, 2, ("f0a5").toList⟩] ∧
      toImages (("^GFA,4,3,2,f0a5^FS").toList) = Except.ok [⟨16, 1, [240, 165]⟩] := by
  refine ⟨by decide, by decide, by decide⟩

/-- C4 (amended): the parser performs no divisibility check; the height
is graphicFieldCount / bytesPerRow rounded down, and a hex directive
parses successfully whenever the payload decodes to exactly
bytesPerRow * (graphicFieldCount / bytesPerRow) bytes, divisible or
not. -/
theorem claim_C4 (bbc gfc bpr : Nat) (data : List Char) (bytes : List Nat)
    (hhex : fromhex data = some bytes) (_hbpr : 1 ≤ bpr)
    (hlen : bytes.length = bpr * (gfc / bpr)) :
    processMatch ⟨['A'], bbc, gfc, bpr, data⟩ =
      Except.ok ⟨bpr * 8, gfc / bpr, bytes⟩ := by
  have hfosial : ∀ (c : Char) (cs : List Char), hexVal c = none →
      fromhex (c :: cs) = none := by
    intro c cs hchar
    cases cs with
    | nil => rfl
    | cons c2 cs2 => simp [fromhex, hchar]
  have hmark : ∀ tag : List Char,
      (':' :: tag).isPrefixOf data = false := by
    intro tag
    cases data with
    | nil => rfl
    | cons c cs =>
      rcases hv : hexVal c with - | v
      · rw [hfosial c cs hv] at hhex
        exact absurd hhex (by simp)
      · have hcne : (':' : Char) ≠ c := by
          intro heq
          rw [← heq] at hv
          have hnone : hexVal ':' = none := by decide
          rw [hnone] at hv
          exact absurd hv (by simp)
        exact not_prefix_of_head cs tag hcne
  unfold processMatch
  rw [if_neg (by simp)]
  rw [if_neg ?hm]
  case hm =>
    rw [show (":Z64").toList = ':' :: ('Z' :: '6' :: '4' :: []) from rfl,
      show (":B64").toList = ':' :: ('B' :: '6' :: '4' :: []) from rfl]
    rw [hmark, hmark]
    simp
  rw [hhex]
  have hd1 : (matchDimensions gfc bpr).1 = bpr * 8 := rfl
  have hd2 : (matchDimensions gfc bpr).2 = gfc / bpr := rfl
  rw [hd1, hd2]
  unfold pilFrombytes
  have hrow : rowBytes (bpr * 8) = bpr := by unfold rowBytes; omega
  rw [hrow]
  show (if bytes.length = bpr * (gfc / bpr) then
      (Except.ok ⟨bpr * 8, gfc / bpr, bytes⟩ : Except ZplError Bitmap)
    else Except.error ZplError.imageSizeError) =
    Except.ok ⟨bpr * 8, gfc / bpr, bytes⟩
  rw [if_pos hlen]

/-- C4 witness. -/
theorem claim_C4_witness :
    processMatch ⟨['A'], 4, 3, 2, ("f0a5").toList⟩ =
      Except.ok ⟨2 * 8, 3 / 2, [240, 165]⟩ :=
  claim_C4 4 3 2 (("f0a5").toList) [240, 165] (by decide) (by decide) (by decide)

/-- C3: for the B64 and Z64 formats the appended 4-hex-digit CRC is
computed over the ASCII bytes of the Base64 text itself, the parser
recomputes the CRC over exactly that slice of the payload so the check
passes, and decoding the emitted directive's match succeeds. -/
theorem claim_C3 (fmt : GFFormat) (img : Bitmap) (hv : validBitmap img)
    (hfmt : fmt = GFFormat.b64 ∨ fmt = GFFormat.z64) :
    gfDataString fmt img none =
        tagOf fmt ++ b64Text fmt img ++
          ':' :: getCrcHexString 33800 ((b64Text fmt img).map Char.toNat) ∧
      pyBody (gfDataString fmt img none) = b64Text fmt img ∧
      pyTail4 (gfDataString fmt img none) =
        getCrcHexString 33800 ((pyBody (gfDataString fmt img none)).map Char.toNat) ∧
      processMatch (matchOf fmt img) = Except.ok (decodedOf img) := by
  have hshape : gfDataString fmt img none =
      tagOf fmt ++ b64Text fmt img ++
        ':' :: getCrcHexString 33800 ((b64Text fmt img).map Char.toNat) := by
    rcases hfmt with rfl | rfl <;> rfl
  have htaglen : (tagOf fmt).length = 5 := by
    rcases hfmt with rfl | rfl <;> rfl
  have hbody : pyBody (gfDataString fmt img none) = b64Text fmt img := by
    rw [hshape]
    exact pyBody_shape _ _ _ htaglen (toHex4_length _)
  refine ⟨hshape, hbody, ?_, processMatch_directive fmt img _ hv⟩
  rw [hbody, hshape]
  exact pyTail4_shape _ _ _ htaglen (toHex4_length _)

/-- C3 witness. -/
theorem claim_C3_witness :
    gfDataString GFFormat.b64 ⟨8, 1, [0]⟩ none =
        tagOf GFFormat.b64 ++ b64Text GFFormat.b64 ⟨8, 1, [0]⟩ ++
          ':' :: getCrcHexString 33800
            ((b64Text GFFormat.b64 ⟨8, 1, [0]⟩).map Char.toNat) ∧
      pyBody (gfDataString GFFormat.b64 ⟨8, 1, [0]⟩ none) =
        b64Text GFFormat.b64 ⟨8, 1, [0]⟩ ∧
      pyTail4 (gfDataString GFFormat.b64 ⟨8, 1, [0]⟩ none) =
        getCrcHexString 33800
          ((pyBody (gfDataString GFFormat.b64 ⟨8, 1, [0]⟩ none)).map Char.toNat) ∧
      processMatch (matchOf GFFormat.b64 ⟨8, 1, [0]⟩) =
        Except.ok (decodedOf ⟨8, 1, [0]⟩) :=
  claim_C3 GFFormat.b64 ⟨8, 1, [0]⟩ (by decide) (Or.inl rfl)

/-- C8: changing any single character of the Base64 text of a
well-formed :B64: or :Z64: payload, without updating the trailing CRC,
makes the per-directive decode fail with the CRC-mismatch error. -/
theorem claim_C8 (tag : List Char)
    (htag : tag = (":B64:").toList ∨ tag = (":Z64:").toList)
    (t : List Char) (ht : ∀ c ∈ t, c.toNat < 128) (i : Nat) (hi : i < t.length)
    (c : Char) (hc : c.toNat < 128) (hne : c ≠ t.get ⟨i, hi⟩)
    (bbc gfc bpr : Nat) :
    processMatch ⟨['A'], bbc, gfc, bpr,
        tag ++ t.set i c ++ ':' :: getCrcHexString 33800 (t.map Char.toNat)⟩ =
      Except.error ZplError.crcMismatch := by
  have htaglen : tag.length = 5 := by rcases htag with rfl | rfl <;> rfl
  have hset : ∀ x ∈ t.set i c, x.toNat < 128 := by
    intro x hx
    rcases List.mem_or_eq_of_mem_set hx with hx | rfl
    · exact ht x hx
    · exact hc
  have hbody : pyBody (tag ++ t.set i c ++
      ':' :: getCrcHexString 33800 (t.map Char.toNat)) = t.set i c :=
    pyBody_shape _ _ _ htaglen (toHex4_length _)
  have htail : pyTail4 (tag ++ t.set i c ++
      ':' :: getCrcHexString 33800 (t.map Char.toNat)) =
      getCrcHexString 33800 (t.map Char.toNat) :=
    pyTail4_shape _ _ _ htaglen (toHex4_length _)
  have hmarker : ((":Z64").toList.isPrefixOf (tag ++ t.set i c ++
      ':' :: getCrcHexString 33800 (t.map Char.toNat)) = true) ∨
      ((":B64").toList.isPrefixOf (tag ++ t.set i c ++
        ':' :: getCrcHexString 33800 (t.map Char.toNat)) = true) := by
    rcases htag with rfl | rfl
    · exact Or.inr rfl
    · exact Or.inl rfl
  have henc : encodeAscii (t.set i c) = some ((t.set i c).map Char.toNat) := by
    unfold encodeAscii
    rw [if_pos]
    simp only [List.all_eq_true, decide_eq_true_eq]
    exact hset
  have hchar_set : t.set i c = t.take i ++ c :: t.drop (i + 1) :=
    List.set_eq_take_cons_drop c hi
  have hchar_orig : t = t.take i ++ t.get ⟨i, hi⟩ :: t.drop (i + 1) := by
    conv_lhs => rw [← List.take_append_drop i t]
    congr 1
    rw [List.get_eq_getElem]
    exact (List.getElem_cons_drop t i hi).symm
  have hmap_set : (t.set i c).map Char.toNat =
      (t.take i).map Char.toNat ++ c.toNat :: (t.drop (i + 1)).map Char.toNat := by
    rw [hchar_set]
    simp only [List.map_append, List.map_cons]
  have hmap_orig : t.map Char.toNat =
      (t.take i).map Char.toNat ++
        (t.get ⟨i, hi⟩).toNat :: (t.drop (i + 1)).map Char.toNat := by
    conv_lhs => rw [hchar_orig]
    simp only [List.map_append, List.map_cons]
  have hcb : c.toNat < 256 := by omega
  have hob : (t.get ⟨i, hi⟩).toNat < 256 := by
    have := ht (t.get ⟨i, hi⟩) (t.get_mem i hi)
    omega
  have hnnat : c.toNat ≠ (t.get ⟨i, hi⟩).toNat := by
    intro heq
    exact hne (Char.ext (UInt32.ext heq))
  have hcrcne : getCrcHexString 33800 ((t.set i c).map Char.toNat) ≠
      getCrcHexString 33800 (t.map Char.toNat) := by
    rw [hmap_set]
    conv_rhs => rw [hmap_orig]
    exact getCrcHexString_substitution hcb hob hnnat
  have hni : getCrcHexString 33800 (t.map Char.toNat) ≠
      getCrcHexString 33800 ((t.set i c).map Char.toNat) :=
    fun heq => hcrcne heq.symm
  unfold processMatch
  rw [if_neg (by simp), if_pos hmarker]
  simp only [hbody, henc, htail]
  rw [if_pos hni]

/-- C8 witness. -/
theorem claim_C8_witness :
    processMatch ⟨['A'], 1, 1, 1,
        (":B64:").toList ++ (("QQ==").toList).set 0 'R' ++
          ':' :: getCrcHexString 33800 ((("QQ==").toList).map Char.toNat)⟩ =
      Except.error ZplError.crcMismatch :=
  claim_C8 ((":B64:").toList) (Or.inl rfl) (("QQ==").toList) (by decide) 0 (by decide)
    'R' (by decide) (by decide) 1 1 1

/-- C9: a document interleaving caret-free text with N (at least one)
emitted directives yields exactly N bitmaps, one per directive in
source order; a document with no graphic field fails with the
no-graphic-field ValueError. -/
theorem claim_C9 (entries : List DocEntry) (post : List Char)
    (hent : ∀ e ∈ entries, validBitmap e.img ∧ containsGF e.sep = false)
    (hpost : containsGF post = false) :
    (entries ≠ [] →
      toImages (docOf entries post) =
        Except.ok (entries.map (fun e => decodedOf e.img)) ∧
      (entries.map (fun e => decodedOf e.img)).length = entries.length) ∧
    toImages (docOf [] post) = Except.error ZplError.noGraphicField := by
  constructor
  · intro hne
    exact ⟨toImages_docOf entries post hent hpost hne, by simp⟩
  · show toImages post = _
    unfold toImages
    have hscan : scanGF post = [] := by
      have := scanGF_skip_noGF post [] hpost (Or.inl rfl)
      rwa [List.append_nil] at this
    rw [hscan]

/-- C9 witness. -/
theorem claim_C9_witness :
    (([⟨("^XA\n").toList, ⟨8, 1, [7]⟩, GFFormat.ascii⟩,
        ⟨("\n^FS junk ^GA ").toList, ⟨16, 1, [1, 2]⟩, GFFormat.b64⟩] : List DocEntry) ≠ [] →
      toImages (docOf [⟨("^XA\n").toList, ⟨8, 1, [7]⟩, GFFormat.ascii⟩,
          ⟨("\n^FS junk ^GA ").toList, ⟨16, 1, [1, 2]⟩, GFFormat.b64⟩] (("\n^XZ\n").toList)) =
        Except.ok (([⟨("^XA\n").toList, ⟨8, 1, [7]⟩, GFFormat.ascii⟩,
          ⟨("\n^FS junk ^GA ").toList, ⟨16, 1, [1, 2]⟩, GFFormat.b64⟩] : List DocEntry).map
            (fun e => decodedOf e.img)) ∧
      (([⟨("^XA\n").toList, ⟨8, 1, [7]⟩, GFFormat.ascii⟩,
        ⟨("\n^FS junk ^GA ").toList, ⟨16, 1, [1, 2]⟩, GFFormat.b64⟩] : List DocEntry).map
          (fun e => decodedOf e.img)).length = 2) ∧
    toImages (docOf [] (("\n^XZ\n").toList)) = Except.error ZplError.noGraphicField :=
  claim_C9 [⟨("^XA\n").toList, ⟨8, 1, [7]⟩, GFFormat.ascii⟩,
      ⟨("\n^FS junk ^GA ").toList, ⟨16, 1, [1, 2]⟩, GFFormat.b64⟩] (("\n^XZ\n").toList)
    (by decide) (by decide)

end Zebrafy



